import Mathlib

/-!
# Verification of the vacuum-world planner (`planner.py`)

A shallow embedding of the state-space search core of the planner:
the state representation, the successor-generation rule, the goal test,
and the two search strategies `depth_first_search` and
`uniform_cost_search`, together with their node accounting.

Coordinates are integer pairs (Python ints), dirty/blocked sets are
finite sets of coordinates (Python `frozenset`/`set`), and the two
search loops are embedded as fuel-indexed recursive functions whose
`timeout` result marks fuel exhaustion (never a behaviour of the
source loops, which simply run until the frontier empties or a goal is
popped).  The `heapq` frontier of `uniform_cost_search` is modelled as
a list popped at its lexicographically (cost, insertion-counter) least
entry, exactly the tuple order `heapq` uses; the `g_best` dict is an
association list whose most recent binding wins; the possible
`KeyError` of the unguarded `g_best[state]` lookup is modelled by the
`error` result.
-/

namespace Vacuum

/-- A grid coordinate `(row, column)`; Python integer pair. -/
abbrev Coord : Type := ℤ × ℤ

/-- A planning state: agent position plus remaining dirty cells,
mirroring the `((r, c), dirty)` pairs of `planner.py`. -/
abbrev St : Type := Coord × Finset Coord

/-- The five symbolic actions: the four moves of `MOVE_DIRS` plus `'V'`. -/
inductive Action : Type where
  | V : Action
  | N : Action
  | S : Action
  | E : Action
  | W : Action
deriving DecidableEq

/-- `MOVE_DIRS` from `planner.py`, in its insertion order `N, S, E, W`. -/
def MOVE_DIRS : List (Action × (ℤ × ℤ)) :=
  [(Action.N, (-1, 0)), (Action.S, (1, 0)), (Action.E, (0, 1)), (Action.W, (0, -1))]

/-- `successors(state, rows, cols, blocked)`: vacuum first when the agent's
cell is dirty, then the moves of `MOVE_DIRS` whose destination is in bounds
and unblocked. -/
def successors (state : St) (rows cols : ℤ) (blocked : Finset Coord) :
    List (Action × St) :=
  (if state.1 ∈ state.2
      then [(Action.V, (state.1, state.2.erase state.1))]
      else []) ++
    MOVE_DIRS.filterMap (fun ad =>
      let n : Coord := (state.1.1 + ad.2.1, state.1.2 + ad.2.2)
      if 0 ≤ n.1 ∧ n.1 < rows ∧ 0 ≤ n.2 ∧ n.2 < cols ∧ n ∉ blocked
        then some (ad.1, (n, state.2))
        else none)

/-- `is_goal(state)`: the dirty set is empty (`len(state[1]) == 0`). -/
def is_goal (state : St) : Bool :=
  state.2.card == 0

/-- The result of a search: a plan with its two counters, the "no plan"
return with its counters, fuel exhaustion, or a `KeyError` crash. -/
inductive SearchResult : Type where
  | plan : List Action → ℕ → ℕ → SearchResult
  | noplan : ℕ → ℕ → SearchResult
  | timeout : SearchResult
  | error : SearchResult
deriving DecidableEq

/-- The sort key used by `depth_first_search`:
`ACTION_ORDER.index(ap[0])` for `ACTION_ORDER = ['V','N','S','E','W']`. -/
def actionIdx : Action → ℕ
  | Action.V => 0
  | Action.N => 1
  | Action.S => 2
  | Action.E => 3
  | Action.W => 4

/-- One insertion step of the stable sort modelling `succs.sort(key=...)`:
an element passes over exactly the earlier elements with a strictly
smaller key. -/
def insertA (e : Action × St) : List (Action × St) → List (Action × St)
  | [] => [e]
  | x :: xs =>
      if actionIdx x.1 < actionIdx e.1 then x :: insertA e xs else e :: x :: xs

/-- Stable insertion sort by `actionIdx`, modelling Python's stable
`list.sort` with the `ACTION_ORDER` key in `depth_first_search`. -/
def sortA : List (Action × St) → List (Action × St)
  | [] => []
  | x :: xs => insertA x (sortA xs)

/-- The loop of `depth_first_search`: LIFO stack of `(state, path)` entries
(head = top of the Python list), visited set, and the two counters.  The
fuel argument only bounds the number of iterations; `timeout` is returned
when it runs out. -/
def dfsLoop (rows cols : ℤ) (blocked : Finset Coord) :
    ℕ → List (St × List Action) → Finset St → ℕ → ℕ → SearchResult
  | _, [], _, gen, exp => SearchResult.noplan gen exp
  | 0, _ :: _, _, _, _ => SearchResult.timeout
  | fuel + 1, (state, path) :: rest, visited, gen, exp =>
      if state ∈ visited then
        dfsLoop rows cols blocked fuel rest visited gen exp
      else if is_goal state then
        SearchResult.plan path gen (exp + 1)
      else
        let succs := sortA (successors state rows cols blocked)
        dfsLoop rows cols blocked fuel
          (succs.map (fun as => (as.2, path ++ [as.1])) ++ rest)
          (insert state visited) (gen + succs.length) (exp + 1)

/-- The parsed world handed to the search entry points: grid dimensions,
blocked cells, start coordinate, initial dirty set. -/
structure World : Type where
  rows : ℤ
  cols : ℤ
  blocked : Finset Coord
  start : Coord
  dirty : Finset Coord

/-- `depth_first_search(rows, cols, blocked, start, dirty)`, up to the
given iteration bound. -/
def depth_first_search (w : World) (fuel : ℕ) : SearchResult :=
  dfsLoop w.rows w.cols w.blocked fuel [((w.start, w.dirty), [])] ∅ 1 0

/-- A frontier entry of `uniform_cost_search`: the tuple
`(cost, insertion counter, state, path)` pushed onto the heap. -/
structure Entry : Type where
  g : ℕ
  cnt : ℕ
  state : St
  path : List Action
deriving DecidableEq

/-- Strict lexicographic comparison on `(cost, counter)` — exactly how
`heapq` compares the pushed tuples (the distinct counters keep it from
ever comparing states). -/
def entryLt (a b : Entry) : Bool :=
  a.g < b.g || (a.g == b.g && a.cnt < b.cnt)

/-- `heapq.heappop`: remove and return the least entry of the frontier
under the `(cost, counter)` order; ties between equal `(cost, counter)`
pairs cannot occur since counters are distinct. -/
def popMin : List Entry → Option (Entry × List Entry)
  | [] => none
  | e :: es =>
      match popMin es with
      | none => some (e, [])
      | some (m, rest) =>
          if entryLt m e then some (m, e :: rest) else some (e, es)

/-- Lookup in the `g_best` dict, modelled as an association list whose
most recent (head-most) binding wins. -/
def lookup (m : List (St × ℕ)) (s : St) : Option ℕ :=
  match m with
  | [] => none
  | kv :: rest => if kv.1 = s then some kv.2 else lookup rest s

/-- The successor loop inside one expansion of `uniform_cost_search`:
for each `(act, nxt)`, push and relabel when the new cost beats the
best-known cost (or the state is fresh), threading frontier, `g_best`,
insertion counter and the generated counter exactly as the Python
`for` loop mutates them. -/
def relax (g : ℕ) (path : List Action) :
    List (Action × St) → List Entry → List (St × ℕ) → ℕ → ℕ →
      List Entry × List (St × ℕ) × ℕ × ℕ
  | [], frontier, g_best, cnt, gen => (frontier, g_best, cnt, gen)
  | an :: more, frontier, g_best, cnt, gen =>
      let g2 := g + 1
      match lookup g_best an.2 with
      | some prev =>
          if g2 < prev then
            relax g path more
              (⟨g2, cnt, an.2, path ++ [an.1]⟩ :: frontier)
              ((an.2, g2) :: g_best) (cnt + 1) (gen + 1)
          else
            relax g path more frontier g_best cnt gen
      | none =>
          relax g path more
            (⟨g2, cnt, an.2, path ++ [an.1]⟩ :: frontier)
            ((an.2, g2) :: g_best) (cnt + 1) (gen + 1)

/-- The loop of `uniform_cost_search`: pop the least `(cost, counter)`
entry; a missing `g_best` key is the `KeyError` of the unguarded
`g_best[state]` (result `error`); a stale entry (cost above best-known)
is skipped without touching the counters; otherwise the entry is
expanded through `relax`. -/
def ucsLoop (rows cols : ℤ) (blocked : Finset Coord) :
    ℕ → List Entry → List (St × ℕ) → ℕ → ℕ → ℕ → SearchResult
  | fuel, frontier, g_best, cnt, gen, exp =>
      match popMin frontier with
      | none => SearchResult.noplan gen exp
      | some (ent, rest) =>
          match fuel with
          | 0 => SearchResult.timeout
          | fuel + 1 =>
              match lookup g_best ent.state with
              | none => SearchResult.error
              | some gb =>
                  if gb < ent.g then
                    ucsLoop rows cols blocked fuel rest g_best cnt gen exp
                  else if is_goal ent.state then
                    SearchResult.plan ent.path gen (exp + 1)
                  else
                    let r := relax ent.g ent.path
                      (successors ent.state rows cols blocked)
                      rest g_best cnt gen
                    ucsLoop rows cols blocked fuel r.1 r.2.1 r.2.2.1 r.2.2.2
                      (exp + 1)

/-- `uniform_cost_search(rows, cols, blocked, start, dirty)`, up to the
given iteration bound: the start state is pushed with cost `0` and
counter `0` and recorded in `g_best` with cost `0`. -/
def uniform_cost_search (w : World) (fuel : ℕ) : SearchResult :=
  ucsLoop w.rows w.cols w.blocked fuel
    [⟨0, 0, (w.start, w.dirty), []⟩] [((w.start, w.dirty), 0)] 1 1 0

/-- The 1x3 ordering scenario of the spec: agent at `(0,1)`, dirty cells
`(0,0)` and `(0,2)`, no blocked cells. -/
def orderingWorld : World :=
  { rows := 1, cols := 3, blocked := ∅, start := (0, 1),
    dirty := {(0, 0), (0, 2)} }

/-! ## The successor rule as the spec words it -/

/-- A coordinate lies within the grid `[0, rows) x [0, cols)`. -/
def inBounds (rows cols : ℤ) (p : Coord) : Prop :=
  0 ≤ p.1 ∧ p.1 < rows ∧ 0 ≤ p.2 ∧ p.2 < cols

instance (rows cols : ℤ) (p : Coord) : Decidable (inBounds rows cols p) := by
  unfold inBounds; infer_instance

/-- The successor rule as the spec words it: vacuum first (only if the
agent's position is in the dirty set; result is the same position with
that coordinate removed), then north, south, east, west (each only if
the destination is within bounds and not blocked, with the dirty set
unchanged). -/
def specSuccessors (state : St) (rows cols : ℤ) (blocked : Finset Coord) :
    List (Action × St) :=
  (if state.1 ∈ state.2
      then [(Action.V, (state.1, state.2.erase state.1))]
      else []) ++
  (if inBounds rows cols (state.1.1 - 1, state.1.2) ∧ (state.1.1 - 1, state.1.2) ∉ blocked
      then [(Action.N, ((state.1.1 - 1, state.1.2), state.2))]
      else []) ++
  (if inBounds rows cols (state.1.1 + 1, state.1.2) ∧ (state.1.1 + 1, state.1.2) ∉ blocked
      then [(Action.S, ((state.1.1 + 1, state.1.2), state.2))]
      else []) ++
  (if inBounds rows cols (state.1.1, state.1.2 + 1) ∧ (state.1.1, state.1.2 + 1) ∉ blocked
      then [(Action.E, ((state.1.1, state.1.2 + 1), state.2))]
      else []) ++
  (if inBounds rows cols (state.1.1, state.1.2 - 1) ∧ (state.1.1, state.1.2 - 1) ∉ blocked
      then [(Action.W, ((state.1.1, state.1.2 - 1), state.2))]
      else [])

theorem successors_eq_spec (state : St) (rows cols : ℤ) (blocked : Finset Coord) :
    successors state rows cols blocked = specSuccessors state rows cols blocked := by
  simp only [successors, specSuccessors, MOVE_DIRS, List.filterMap_cons,
    List.filterMap_nil, inBounds, add_zero, ← sub_eq_add_neg, and_assoc]
  split_ifs <;> rfl

/-- Legality of a destination cell: in bounds and not blocked. -/
def okDest (rows cols : ℤ) (blocked : Finset Coord) (p : Coord) : Prop :=
  inBounds rows cols p ∧ p ∉ blocked

instance (rows cols : ℤ) (blocked : Finset Coord) (p : Coord) :
    Decidable (okDest rows cols blocked p) := by
  unfold okDest; infer_instance

theorem mem_ite_singleton {c : Prop} [Decidable c] {x y : Action × St} :
    (y ∈ (if c then [x] else [])) ↔ c ∧ y = x := by
  split_ifs with h <;> simp [h]

/-- Exact description of the one-step successor relation. -/
theorem mem_successors_iff {rows cols : ℤ} {blocked : Finset Coord}
    {s : St} {a : Action} {s' : St} :
    (a, s') ∈ successors s rows cols blocked ↔
      (a = Action.V ∧ s.1 ∈ s.2 ∧ s' = (s.1, s.2.erase s.1)) ∨
      (a = Action.N ∧ okDest rows cols blocked (s.1.1 - 1, s.1.2) ∧
        s' = ((s.1.1 - 1, s.1.2), s.2)) ∨
      (a = Action.S ∧ okDest rows cols blocked (s.1.1 + 1, s.1.2) ∧
        s' = ((s.1.1 + 1, s.1.2), s.2)) ∨
      (a = Action.E ∧ okDest rows cols blocked (s.1.1, s.1.2 + 1) ∧
        s' = ((s.1.1, s.1.2 + 1), s.2)) ∨
      (a = Action.W ∧ okDest rows cols blocked (s.1.1, s.1.2 - 1) ∧
        s' = ((s.1.1, s.1.2 - 1), s.2)) := by
  rw [successors_eq_spec]
  unfold specSuccessors okDest
  simp only [List.mem_append, mem_ite_singleton, Prod.mk.injEq, or_assoc]
  constructor
  · rintro (⟨hc, ha, hs⟩ | ⟨hc, ha, hs⟩ | ⟨hc, ha, hs⟩ | ⟨hc, ha, hs⟩ | ⟨hc, ha, hs⟩)
    · exact Or.inl ⟨ha, hc, hs⟩
    · exact Or.inr (Or.inl ⟨ha, hc, hs⟩)
    · exact Or.inr (Or.inr (Or.inl ⟨ha, hc, hs⟩))
    · exact Or.inr (Or.inr (Or.inr (Or.inl ⟨ha, hc, hs⟩)))
    · exact Or.inr (Or.inr (Or.inr (Or.inr ⟨ha, hc, hs⟩)))
  · rintro (⟨ha, hc, hs⟩ | ⟨ha, hc, hs⟩ | ⟨ha, hc, hs⟩ | ⟨ha, hc, hs⟩ | ⟨ha, hc, hs⟩)
    · exact Or.inl ⟨hc, ha, hs⟩
    · exact Or.inr (Or.inl ⟨hc, ha, hs⟩)
    · exact Or.inr (Or.inr (Or.inl ⟨hc, ha, hs⟩))
    · exact Or.inr (Or.inr (Or.inr (Or.inl ⟨hc, ha, hs⟩)))
    · exact Or.inr (Or.inr (Or.inr (Or.inr ⟨hc, ha, hs⟩)))

/-- A successor always differs from its parent state. -/
theorem successors_ne {rows cols : ℤ} {blocked : Finset Coord}
    {s : St} {a : Action} {s' : St}
    (h : (a, s') ∈ successors s rows cols blocked) : s' ≠ s := by
  rcases mem_successors_iff.mp h with ⟨_, hd, hs⟩ | ⟨_, _, hs⟩ | ⟨_, _, hs⟩ |
      ⟨_, _, hs⟩ | ⟨_, _, hs⟩ <;> subst hs
  · intro hcontra
    have h2 : s.2.erase s.1 = s.2 := congrArg Prod.snd hcontra
    have h3 : s.1 ∈ s.2.erase s.1 := h2.symm ▸ hd
    simp [Finset.mem_erase] at h3
  all_goals
    intro hcontra
    have h1 := congrArg (fun t : St => t.1.1) hcontra
    have h2 := congrArg (fun t : St => t.1.2) hcontra
    simp only at h1 h2
    omega

/-- At most five successors: one vacuum plus the four moves. -/
theorem successors_length_le (s : St) (rows cols : ℤ) (blocked : Finset Coord) :
    (successors s rows cols blocked).length ≤ 5 := by
  rw [successors_eq_spec]
  unfold specSuccessors
  split_ifs <;> simp

/-- The successor list is strictly increasing in the `ACTION_ORDER` key,
so the stable sort of `depth_first_search` leaves it unchanged. -/
theorem successors_pairwise (s : St) (rows cols : ℤ) (blocked : Finset Coord) :
    (successors s rows cols blocked).Pairwise
      (fun x y => actionIdx x.1 < actionIdx y.1) := by
  rw [successors_eq_spec]
  unfold specSuccessors
  split_ifs <;> simp [actionIdx]

theorem insertA_of_lt {x : Action × St} {l : List (Action × St)}
    (h : ∀ y ∈ l, actionIdx x.1 < actionIdx y.1) : insertA x l = x :: l := by
  cases l with
  | nil => rfl
  | cons y ys =>
      have : ¬ actionIdx y.1 < actionIdx x.1 :=
        Nat.not_lt.mpr (Nat.le_of_lt (h y (List.mem_cons_self y ys)))
      simp [insertA, this]

theorem sortA_of_pairwise {l : List (Action × St)}
    (h : l.Pairwise (fun x y => actionIdx x.1 < actionIdx y.1)) :
    sortA l = l := by
  induction l with
  | nil => rfl
  | cons x xs ih =>
      rw [List.pairwise_cons] at h
      rw [sortA, ih h.2, insertA_of_lt h.1]

/-- The `succs.sort(key=...)` of `depth_first_search` is the identity on a
successor list: it is already in canonical order. -/
theorem sortA_successors (s : St) (rows cols : ℤ) (blocked : Finset Coord) :
    sortA (successors s rows cols blocked) = successors s rows cols blocked :=
  sortA_of_pairwise (successors_pairwise s rows cols blocked)

/-- The actions of the successor list are pairwise distinct. -/
theorem successors_fst_nodup (s : St) (rows cols : ℤ) (blocked : Finset Coord) :
    ((successors s rows cols blocked).map Prod.fst).Nodup := by
  have h := successors_pairwise s rows cols blocked
  rw [List.Nodup, List.pairwise_map]
  refine h.imp ?_
  intro x y hlt heq
  rw [heq] at hlt
  exact Nat.lt_irrefl _ hlt

/-! ## Applying actions and plans (the successor relation as a function) -/

/-- The state reached from `s` by action `a`, when `a` is legal at `s`:
the unique `(a, s')` successor, if any. -/
def applyAction (rows cols : ℤ) (blocked : Finset Coord) (s : St) (a : Action) :
    Option St :=
  ((successors s rows cols blocked).find? (fun x => x.1 == a)).map (fun x => x.2)

theorem find?_eq_some_of_fst_nodup {l : List (Action × St)} {a : Action} {s' : St}
    (hnd : (l.map Prod.fst).Nodup) (hmem : (a, s') ∈ l) :
    l.find? (fun x => x.1 == a) = some (a, s') := by
  induction l with
  | nil => cases hmem
  | cons x xs ih =>
      simp only [List.map_cons, List.nodup_cons] at hnd
      rcases List.mem_cons.mp hmem with heq | htail
      · subst heq
        exact List.find?_cons_of_pos _ (by simp)
      · have hne : x.1 ≠ a := by
          intro hx
          exact hnd.1 (hx ▸ (List.mem_map.mpr ⟨(a, s'), htail, rfl⟩))
        rw [List.find?_cons_of_neg _ (by simpa using hne)]
        exact ih hnd.2 htail

theorem applyAction_of_mem {rows cols : ℤ} {blocked : Finset Coord}
    {s : St} {a : Action} {s' : St}
    (h : (a, s') ∈ successors s rows cols blocked) :
    applyAction rows cols blocked s a = some s' := by
  unfold applyAction
  rw [find?_eq_some_of_fst_nodup (successors_fst_nodup s rows cols blocked) h]
  rfl

theorem mem_of_applyAction {rows cols : ℤ} {blocked : Finset Coord}
    {s : St} {a : Action} {s' : St}
    (h : applyAction rows cols blocked s a = some s') :
    (a, s') ∈ successors s rows cols blocked := by
  unfold applyAction at h
  rcases hf : (successors s rows cols blocked).find? (fun x => x.1 == a) with _ | x
  · rw [hf] at h; cases h
  · rw [hf] at h
    have hx : x ∈ successors s rows cols blocked := List.mem_of_find?_eq_some hf
    have ha : x.1 = a := by
      have hp := @List.find?_some (Action × St) (fun y => y.1 == a) x
        (successors s rows cols blocked) hf
      simpa using hp
    have hs : x.2 = s' := by simpa using h
    have : x = (a, s') := Prod.ext ha hs
    exact this ▸ hx

/-- Applying a list of actions in order, `None` as soon as one is illegal. -/
def applyPlan (rows cols : ℤ) (blocked : Finset Coord) : St → List Action → Option St
  | s, [] => some s
  | s, a :: p =>
      match applyAction rows cols blocked s a with
      | none => none
      | some s' => applyPlan rows cols blocked s' p

theorem applyPlan_append (rows cols : ℤ) (blocked : Finset Coord)
    (p q : List Action) :
    ∀ s : St, applyPlan rows cols blocked s (p ++ q) =
      match applyPlan rows cols blocked s p with
      | none => none
      | some t => applyPlan rows cols blocked t q := by
  induction p with
  | nil => intro s; simp [applyPlan]
  | cons a p ih =>
      intro s
      simp only [List.cons_append, applyPlan]
      rcases applyAction rows cols blocked s a with _ | s'
      · rfl
      · exact ih s'

theorem applyPlan_snoc {rows cols : ℤ} {blocked : Finset Coord}
    {s z : St} {p : List Action} {a : Action}
    (h : applyPlan rows cols blocked s (p ++ [a]) = some z) :
    ∃ y, applyPlan rows cols blocked s p = some y ∧
      applyAction rows cols blocked y a = some z := by
  rw [applyPlan_append] at h
  rcases hy : applyPlan rows cols blocked s p with _ | y
  · rw [hy] at h; cases h
  · rw [hy] at h
    refine ⟨y, rfl, ?_⟩
    rcases ha : applyAction rows cols blocked y a with _ | z'
    · simp [applyPlan, ha] at h
    · simp [applyPlan, ha] at h
      exact congrArg some h

/-! ## The finite state space -/

/-- The in-bounds coordinates of the grid. -/
def gridCoords (rows cols : ℤ) : Finset Coord :=
  Finset.Ico 0 rows ×ˢ Finset.Ico 0 cols

/-- A finite superset of every state either search can ever reach from the
start state: the start position or any in-bounds position, paired with any
subset of the initial dirty set. -/
def stSpace (w : World) : Finset St :=
  insert w.start (gridCoords w.rows w.cols) ×ˢ w.dirty.powerset

theorem start_mem_stSpace (w : World) : (w.start, w.dirty) ∈ stSpace w := by
  unfold stSpace
  rw [Finset.mem_product]
  exact ⟨Finset.mem_insert_self _ _, Finset.mem_powerset_self _⟩

theorem successors_mem_stSpace {w : World} {s : St} {a : Action} {s' : St}
    (hs : s ∈ stSpace w)
    (h : (a, s') ∈ successors s w.rows w.cols w.blocked) : s' ∈ stSpace w := by
  unfold stSpace at hs ⊢
  rw [Finset.mem_product] at hs ⊢
  rcases mem_successors_iff.mp h with ⟨_, _, h'⟩ | ⟨_, hok, h'⟩ | ⟨_, hok, h'⟩ |
      ⟨_, hok, h'⟩ | ⟨_, hok, h'⟩ <;> subst h'
  · exact ⟨hs.1, by
      rw [Finset.mem_powerset] at hs ⊢
      exact (Finset.erase_subset _ _).trans hs.2⟩
  all_goals
    refine ⟨?_, hs.2⟩
    rcases hok with ⟨hin, _⟩
    refine Finset.mem_insert_of_mem ?_
    unfold gridCoords
    rw [Finset.mem_product, Finset.mem_Ico, Finset.mem_Ico]
    rcases hin with ⟨h1, h2, h3, h4⟩
    exact ⟨⟨h1, h2⟩, ⟨h3, h4⟩⟩

/-! ## Properties of the modelled heap pop -/

theorem popMin_eq_none_iff {l : List Entry} : popMin l = none ↔ l = [] := by
  cases l with
  | nil => simp [popMin]
  | cons e es =>
      simp only [popMin]
      rcases hes : popMin es with _ | ⟨m, rest⟩
      · simp
      · simp only []
        split_ifs <;> simp

theorem popMin_perm {l : List Entry} {m : Entry} {rest : List Entry}
    (h : popMin l = some (m, rest)) : l.Perm (m :: rest) := by
  induction l generalizing m rest with
  | nil => cases h
  | cons e es ih =>
      rcases hes : popMin es with _ | ⟨m', rest'⟩
      · have : es = [] := popMin_eq_none_iff.mp hes
        subst this
        simp [popMin] at h
        rw [h.1, h.2]
      · simp only [popMin, hes] at h
        by_cases hlt : entryLt m' e
        · rw [if_pos hlt] at h
          injection h with h1
          injection h1 with h1 h2
          subst h1
          subst h2
          exact ((ih hes).cons e).trans (List.Perm.swap _ _ _)
        · rw [if_neg hlt] at h
          injection h with h1
          injection h1 with h1 h2
          subst h1
          subst h2
          exact List.Perm.refl _

theorem popMin_min_g {l : List Entry} {m : Entry} {rest : List Entry}
    (h : popMin l = some (m, rest)) : ∀ e ∈ l, m.g ≤ e.g := by
  induction l generalizing m rest with
  | nil => cases h
  | cons e es ih =>
      rcases hes : popMin es with _ | ⟨m', rest'⟩
      · have : es = [] := popMin_eq_none_iff.mp hes
        subst this
        simp [popMin] at h
        intro x hx
        rcases List.mem_singleton.mp hx with rfl
        rw [h.1]
      · simp only [popMin, hes] at h
        by_cases hlt : entryLt m' e
        · rw [if_pos hlt] at h
          injection h with h1
          injection h1 with h1 h2
          subst h1
          intro x hx
          simp only [entryLt, Bool.or_eq_true, Bool.and_eq_true, beq_iff_eq,
            decide_eq_true_eq] at hlt
          rcases List.mem_cons.mp hx with rfl | hx
          · omega
          · exact ih hes x hx
        · rw [if_neg hlt] at h
          injection h with h1
          injection h1 with h1 h2
          subst h1
          intro x hx
          simp only [entryLt, Bool.or_eq_true, Bool.and_eq_true, beq_iff_eq,
            decide_eq_true_eq, not_or, not_and] at hlt
          have hem := Nat.not_lt.mp hlt.1
          rcases List.mem_cons.mp hx with rfl | hx
          · exact Nat.le_refl _
          · exact hem.trans (ih hes x hx)

theorem popMin_mem {l : List Entry} {m : Entry} {rest : List Entry}
    (h : popMin l = some (m, rest)) : m ∈ l :=
  (popMin_perm h).mem_iff.mpr (List.mem_cons_self _ _)

theorem popMin_length {l : List Entry} {m : Entry} {rest : List Entry}
    (h : popMin l = some (m, rest)) : l.length = rest.length + 1 := by
  have := (popMin_perm h).length_eq
  simpa using this

theorem popMin_mem_rest {l : List Entry} {m : Entry} {rest : List Entry}
    (h : popMin l = some (m, rest)) {e : Entry} (he : e ∈ rest) : e ∈ l :=
  (popMin_perm h).mem_iff.mpr (List.mem_cons_of_mem _ he)

theorem popMin_cases {l : List Entry} {m : Entry} {rest : List Entry}
    (h : popMin l = some (m, rest)) {e : Entry} (he : e ∈ l) :
    e = m ∨ e ∈ rest :=
  List.mem_cons.mp ((popMin_perm h).mem_iff.mp he)

/-! ## One-step unfoldings of the `uniform_cost_search` loop -/

theorem ucsLoop_pop_none {rows cols : ℤ} {blocked : Finset Coord}
    {fuel : ℕ} {frontier : List Entry} {g_best : List (St × ℕ)} {cnt gen exp : ℕ}
    (hpop : popMin frontier = none) :
    ucsLoop rows cols blocked fuel frontier g_best cnt gen exp =
      SearchResult.noplan gen exp := by
  rw [ucsLoop, hpop]

theorem ucsLoop_zero {rows cols : ℤ} {blocked : Finset Coord}
    {frontier : List Entry} {g_best : List (St × ℕ)} {cnt gen exp : ℕ}
    {ent : Entry} {rest : List Entry}
    (hpop : popMin frontier = some (ent, rest)) :
    ucsLoop rows cols blocked 0 frontier g_best cnt gen exp =
      SearchResult.timeout := by
  rw [ucsLoop, hpop]

theorem ucsLoop_keyerror {rows cols : ℤ} {blocked : Finset Coord}
    {fuel : ℕ} {frontier : List Entry} {g_best : List (St × ℕ)} {cnt gen exp : ℕ}
    {ent : Entry} {rest : List Entry}
    (hpop : popMin frontier = some (ent, rest))
    (hlk : lookup g_best ent.state = none) :
    ucsLoop rows cols blocked (fuel + 1) frontier g_best cnt gen exp =
      SearchResult.error := by
  rw [ucsLoop, hpop]
  simp only [hlk]

theorem ucsLoop_stale {rows cols : ℤ} {blocked : Finset Coord}
    {fuel : ℕ} {frontier : List Entry} {g_best : List (St × ℕ)} {cnt gen exp : ℕ}
    {ent : Entry} {rest : List Entry} {gb : ℕ}
    (hpop : popMin frontier = some (ent, rest))
    (hlk : lookup g_best ent.state = some gb)
    (hstale : gb < ent.g) :
    ucsLoop rows cols blocked (fuel + 1) frontier g_best cnt gen exp =
      ucsLoop rows cols blocked fuel rest g_best cnt gen exp := by
  rw [ucsLoop, hpop]
  simp only [hlk, if_pos hstale]

theorem ucsLoop_goal {rows cols : ℤ} {blocked : Finset Coord}
    {fuel : ℕ} {frontier : List Entry} {g_best : List (St × ℕ)} {cnt gen exp : ℕ}
    {ent : Entry} {rest : List Entry} {gb : ℕ}
    (hpop : popMin frontier = some (ent, rest))
    (hlk : lookup g_best ent.state = some gb)
    (hstale : ¬ gb < ent.g)
    (hgoal : is_goal ent.state = true) :
    ucsLoop rows cols blocked (fuel + 1) frontier g_best cnt gen exp =
      SearchResult.plan ent.path gen (exp + 1) := by
  rw [ucsLoop, hpop]
  simp only [hlk, if_neg hstale, hgoal, if_pos]

theorem ucsLoop_expand {rows cols : ℤ} {blocked : Finset Coord}
    {fuel : ℕ} {frontier : List Entry} {g_best : List (St × ℕ)} {cnt gen exp : ℕ}
    {ent : Entry} {rest : List Entry} {gb : ℕ}
    (hpop : popMin frontier = some (ent, rest))
    (hlk : lookup g_best ent.state = some gb)
    (hstale : ¬ gb < ent.g)
    (hgoal : is_goal ent.state = false) :
    ucsLoop rows cols blocked (fuel + 1) frontier g_best cnt gen exp =
      (fun r => ucsLoop rows cols blocked fuel r.1 r.2.1 r.2.2.1 r.2.2.2 (exp + 1))
        (relax ent.g ent.path (successors ent.state rows cols blocked)
          rest g_best cnt gen) := by
  rw [ucsLoop, hpop]
  simp only [hlk, if_neg hstale, hgoal]
  rfl

/-! ## Fuel stability: a result other than `timeout` is final -/

theorem dfsLoop_add_fuel (rows cols : ℤ) (blocked : Finset Coord) :
    ∀ fuel stack visited gen exp extra,
      dfsLoop rows cols blocked fuel stack visited gen exp ≠ SearchResult.timeout →
      dfsLoop rows cols blocked (fuel + extra) stack visited gen exp =
        dfsLoop rows cols blocked fuel stack visited gen exp := by
  intro fuel
  induction fuel with
  | zero =>
      intro stack visited gen exp extra h
      cases stack with
      | nil => simp [dfsLoop]
      | cons x rest => exact absurd rfl h
  | succ fuel ih =>
      intro stack visited gen exp extra h
      cases stack with
      | nil => simp [dfsLoop]
      | cons x rest =>
          rcases x with ⟨state, path⟩
          have harith : fuel + 1 + extra = (fuel + extra) + 1 := by omega
          rw [harith]
          simp only [dfsLoop] at h ⊢
          split_ifs with h1 h2
          · exact ih rest visited gen exp extra (by simpa [h1] using h)
          · rfl
          · refine ih _ _ _ _ extra ?_
            simpa [h1, h2] using h

theorem ucsLoop_add_fuel (rows cols : ℤ) (blocked : Finset Coord) :
    ∀ fuel frontier g_best cnt gen exp extra,
      ucsLoop rows cols blocked fuel frontier g_best cnt gen exp ≠
        SearchResult.timeout →
      ucsLoop rows cols blocked (fuel + extra) frontier g_best cnt gen exp =
        ucsLoop rows cols blocked fuel frontier g_best cnt gen exp := by
  intro fuel
  induction fuel with
  | zero =>
      intro frontier g_best cnt gen exp extra h
      rcases hpop : popMin frontier with _ | ⟨ent, rest⟩
      · simp only [ucsLoop_pop_none hpop]
      · exact absurd (ucsLoop_zero hpop) h
  | succ fuel ih =>
      intro frontier g_best cnt gen exp extra h
      rcases hpop : popMin frontier with _ | ⟨ent, rest⟩
      · simp only [ucsLoop_pop_none hpop]
      · have harith : fuel + 1 + extra = (fuel + extra) + 1 := by omega
        rw [harith]
        rcases hlk : lookup g_best ent.state with _ | gb
        · simp only [ucsLoop_keyerror hpop hlk]
        · by_cases hstale : gb < ent.g
          · rw [ucsLoop_stale hpop hlk hstale] at h ⊢
            rw [ucsLoop_stale hpop hlk hstale]
            exact ih _ _ _ _ _ extra h
          · rcases hgoal : is_goal ent.state with _ | _
            · rw [ucsLoop_expand hpop hlk hstale hgoal] at h ⊢
              rw [ucsLoop_expand hpop hlk hstale hgoal]
              exact ih _ _ _ _ _ extra h
            · simp only [ucsLoop_goal hpop hlk hstale hgoal]

/-! ## Counter invariants -/

theorem relax_gen_len (g : ℕ) (p : List Action) :
    ∀ (succ : List (Action × St)) (frontier : List Entry)
      (g_best : List (St × ℕ)) (cnt gen : ℕ),
      (relax g p succ frontier g_best cnt gen).1.length + gen =
        frontier.length + (relax g p succ frontier g_best cnt gen).2.2.2 := by
  intro succ
  induction succ with
  | nil => intro frontier g_best cnt gen; simp [relax]
  | cons an more ih =>
      intro frontier g_best cnt gen
      rcases h2 : lookup g_best an.2 with _ | prev
      · simp only [relax, h2]
        have := ih (⟨g + 1, cnt, an.2, p ++ [an.1]⟩ :: frontier)
          ((an.2, g + 1) :: g_best) (cnt + 1) (gen + 1)
        simp only [List.length_cons] at this ⊢
        omega
      · simp only [relax, h2]
        by_cases hlt : g + 1 < prev
        · rw [if_pos hlt]
          have := ih (⟨g + 1, cnt, an.2, p ++ [an.1]⟩ :: frontier)
            ((an.2, g + 1) :: g_best) (cnt + 1) (gen + 1)
          simp only [List.length_cons] at this ⊢
          omega
        · rw [if_neg hlt]
          exact ih frontier g_best cnt gen

theorem dfsLoop_exp_le_gen (rows cols : ℤ) (blocked : Finset Coord) :
    ∀ fuel (stack : List (St × List Action)) (visited : Finset St) (gen exp : ℕ),
      exp + stack.length ≤ gen →
      ∀ pl g e,
        (dfsLoop rows cols blocked fuel stack visited gen exp =
            SearchResult.plan pl g e ∨
         dfsLoop rows cols blocked fuel stack visited gen exp =
            SearchResult.noplan g e) → e ≤ g := by
  intro fuel
  induction fuel with
  | zero =>
      intro stack visited gen exp hle pl g e hres
      cases stack with
      | nil =>
          simp only [dfsLoop] at hres
          rcases hres with h | h
          · cases h
          · injection h with h1 h2
            omega
      | cons x rest =>
          rcases hres with h | h <;> cases h
  | succ fuel ih =>
      intro stack visited gen exp hle pl g e hres
      cases stack with
      | nil =>
          simp only [dfsLoop] at hres
          rcases hres with h | h
          · cases h
          · injection h with h1 h2
            omega
      | cons x rest =>
          rcases x with ⟨state, path⟩
          simp only [dfsLoop] at hres
          split_ifs at hres with h1 h2
          · refine ih rest visited gen exp ?_ pl g e hres
            simp only [List.length_cons] at hle
            omega
          · rcases hres with h | h
            · injection h with h1 h2 h3
              simp only [List.length_cons] at hle
              omega
            · cases h
          · refine ih _ _ _ _ ?_ pl g e hres
            simp only [List.length_append, List.length_map, List.length_cons] at hle ⊢
            omega

theorem ucsLoop_exp_le_gen (rows cols : ℤ) (blocked : Finset Coord) :
    ∀ fuel (frontier : List Entry) (g_best : List (St × ℕ)) (cnt gen exp : ℕ),
      exp + frontier.length ≤ gen →
      ∀ pl g e,
        (ucsLoop rows cols blocked fuel frontier g_best cnt gen exp =
            SearchResult.plan pl g e ∨
         ucsLoop rows cols blocked fuel frontier g_best cnt gen exp =
            SearchResult.noplan g e) → e ≤ g := by
  intro fuel
  induction fuel with
  | zero =>
      intro frontier g_best cnt gen exp hle pl g e hres
      rcases hpop : popMin frontier with _ | ⟨ent, rest⟩
      · rw [ucsLoop_pop_none hpop] at hres
        rcases hres with h | h
        · cases h
        · injection h with h1 h2
          omega
      · rw [ucsLoop_zero hpop] at hres
        rcases hres with h | h <;> cases h
  | succ fuel ih =>
      intro frontier g_best cnt gen exp hle pl g e hres
      rcases hpop : popMin frontier with _ | ⟨ent, rest⟩
      · rw [ucsLoop_pop_none hpop] at hres
        rcases hres with h | h
        · cases h
        · injection h with h1 h2
          omega
      · have hlen := popMin_length hpop
        rcases hlk : lookup g_best ent.state with _ | gb
        · rw [ucsLoop_keyerror hpop hlk] at hres
          rcases hres with h | h <;> cases h
        · by_cases hstale : gb < ent.g
          · rw [ucsLoop_stale hpop hlk hstale] at hres
            refine ih rest g_best cnt gen exp ?_ pl g e hres
            omega
          · rcases hgoal : is_goal ent.state with _ | _
            · rw [ucsLoop_expand hpop hlk hstale hgoal] at hres
              have hrl := relax_gen_len ent.g ent.path
                (successors ent.state rows cols blocked) rest g_best cnt gen
              refine ih _ _ _ _ _ ?_ pl g e hres
              omega
            · rw [ucsLoop_goal hpop hlk hstale hgoal] at hres
              rcases hres with h | h
              · injection h with h1 h2 h3
                omega
              · cases h

theorem dfsLoop_ne_error (rows cols : ℤ) (blocked : Finset Coord) :
    ∀ fuel (stack : List (St × List Action)) (visited : Finset St) (gen exp : ℕ),
      dfsLoop rows cols blocked fuel stack visited gen exp ≠
        SearchResult.error := by
  intro fuel
  induction fuel with
  | zero =>
      intro stack visited gen exp
      cases stack with
      | nil => simp [dfsLoop]
      | cons x rest => simp [dfsLoop]
  | succ fuel ih =>
      intro stack visited gen exp
      cases stack with
      | nil => simp [dfsLoop]
      | cons x rest =>
          rcases x with ⟨state, path⟩
          simp only [dfsLoop]
          split_ifs with h1 h2
          · exact ih rest visited gen exp
          · simp
          · exact ih _ _ _ _

/-! ## The `g_best` dict always has a key for every frontier state -/

theorem lookup_cons_ne_none {g_best : List (St × ℕ)} {k : St} {v : ℕ} {s : St}
    (h : lookup g_best s ≠ none) : lookup ((k, v) :: g_best) s ≠ none := by
  simp only [lookup]
  split_ifs with hk
  · simp
  · exact h

theorem relax_lookup_ne_none (g : ℕ) (p : List Action) :
    ∀ (succ : List (Action × St)) (frontier : List Entry)
      (g_best : List (St × ℕ)) (cnt gen : ℕ) (s : St),
      lookup g_best s ≠ none →
      lookup (relax g p succ frontier g_best cnt gen).2.1 s ≠ none := by
  intro succ
  induction succ with
  | nil => intro frontier g_best cnt gen s h; simpa [relax] using h
  | cons an more ih =>
      intro frontier g_best cnt gen s h
      rcases h2 : lookup g_best an.2 with _ | prev
      · simp only [relax, h2]
        exact ih _ _ _ _ s (lookup_cons_ne_none h)
      · simp only [relax, h2]
        by_cases hlt : g + 1 < prev
        · rw [if_pos hlt]
          exact ih _ _ _ _ s (lookup_cons_ne_none h)
        · rw [if_neg hlt]
          exact ih _ _ _ _ s h

theorem relax_frontier_keyed (g : ℕ) (p : List Action) :
    ∀ (succ : List (Action × St)) (frontier : List Entry)
      (g_best : List (St × ℕ)) (cnt gen : ℕ),
      (∀ e ∈ frontier, lookup g_best e.state ≠ none) →
      ∀ e ∈ (relax g p succ frontier g_best cnt gen).1,
        lookup (relax g p succ frontier g_best cnt gen).2.1 e.state ≠ none := by
  intro succ
  induction succ with
  | nil => intro frontier g_best cnt gen h e he; simp only [relax]; exact h e he
  | cons an more ih =>
      intro frontier g_best cnt gen h
      rcases h2 : lookup g_best an.2 with _ | prev
      · simp only [relax, h2]
        refine ih _ _ _ _ ?_
        intro e he
        rcases List.mem_cons.mp he with rfl | he
        · simp [lookup]
        · exact lookup_cons_ne_none (h e he)
      · simp only [relax, h2]
        by_cases hlt : g + 1 < prev
        · rw [if_pos hlt]
          refine ih _ _ _ _ ?_
          intro e he
          rcases List.mem_cons.mp he with rfl | he
          · simp [lookup]
          · exact lookup_cons_ne_none (h e he)
        · rw [if_neg hlt]
          exact ih _ _ _ _ h

theorem ucsLoop_ne_error (rows cols : ℤ) (blocked : Finset Coord) :
    ∀ fuel (frontier : List Entry) (g_best : List (St × ℕ)) (cnt gen exp : ℕ),
      (∀ e ∈ frontier, lookup g_best e.state ≠ none) →
      ucsLoop rows cols blocked fuel frontier g_best cnt gen exp ≠
        SearchResult.error := by
  intro fuel
  induction fuel with
  | zero =>
      intro frontier g_best cnt gen exp hkeys
      rcases hpop : popMin frontier with _ | ⟨ent, rest⟩
      · rw [ucsLoop_pop_none hpop]; simp
      · rw [ucsLoop_zero hpop]; simp
  | succ fuel ih =>
      intro frontier g_best cnt gen exp hkeys
      rcases hpop : popMin frontier with _ | ⟨ent, rest⟩
      · rw [ucsLoop_pop_none hpop]; simp
      · rcases hlk : lookup g_best ent.state with _ | gb
        · exact absurd hlk (hkeys ent (popMin_mem hpop))
        · by_cases hstale : gb < ent.g
          · rw [ucsLoop_stale hpop hlk hstale]
            exact ih rest g_best cnt gen exp
              (fun e he => hkeys e (popMin_mem_rest hpop he))
          · rcases hgoal : is_goal ent.state with _ | _
            · rw [ucsLoop_expand hpop hlk hstale hgoal]
              exact ih _ _ _ _ _
                (relax_frontier_keyed _ _ _ _ _ _ _
                  (fun e he => hkeys e (popMin_mem_rest hpop he)))
            · rw [ucsLoop_goal hpop hlk hstale hgoal]
              simp

/-! ## Soundness of `depth_first_search`: returned plans reach a goal -/

theorem dfsLoop_sound (rows cols : ℤ) (blocked : Finset Coord) (s₀ : St) :
    ∀ fuel (stack : List (St × List Action)) (visited : Finset St) (gen exp : ℕ),
      (∀ e ∈ stack, applyPlan rows cols blocked s₀ e.2 = some e.1) →
      ∀ pl g e,
        dfsLoop rows cols blocked fuel stack visited gen exp =
          SearchResult.plan pl g e →
        ∃ z, applyPlan rows cols blocked s₀ pl = some z ∧ is_goal z = true := by
  intro fuel
  induction fuel with
  | zero =>
      intro stack visited gen exp hinv pl g e hres
      cases stack with
      | nil => cases hres
      | cons x rest => cases hres
  | succ fuel ih =>
      intro stack visited gen exp hinv pl g e hres
      cases stack with
      | nil => cases hres
      | cons x rest =>
          rcases x with ⟨state, path⟩
          simp only [dfsLoop] at hres
          split_ifs at hres with h1 h2
          · exact ih rest visited gen exp
              (fun e he => hinv e (List.mem_cons_of_mem _ he)) pl g e hres
          · injection hres with hp hg he
            subst hp
            exact ⟨state, hinv (state, path) (List.mem_cons_self _ _), h2⟩
          · rw [sortA_successors] at hres
            refine ih _ _ _ _ ?_ pl g e hres
            intro e he
            rcases List.mem_append.mp he with he | he
            · rcases List.mem_map.mp he with ⟨as, has, rfl⟩
              have hstep : applyAction rows cols blocked state as.1 = some as.2 := by
                refine applyAction_of_mem ?_
                rw [show (as.1, as.2) = as from rfl]
                exact has
              have hpath : applyPlan rows cols blocked s₀ path = some state :=
                hinv (state, path) (List.mem_cons_self _ _)
              rw [applyPlan_append, hpath]
              simp [applyPlan, hstep]
            · exact hinv e (List.mem_cons_of_mem _ he)

/-! ## Completeness of `depth_first_search`: "no plan" means no goal is
reachable -/

theorem visited_closed_reach (rows cols : ℤ) (blocked : Finset Coord)
    {visited : Finset St}
    (hclosed : ∀ v ∈ visited, ∀ a s',
      (a, s') ∈ successors v rows cols blocked → s' ∈ visited) :
    ∀ (q : List Action) (s z : St), s ∈ visited →
      applyPlan rows cols blocked s q = some z → z ∈ visited := by
  intro q
  induction q with
  | nil =>
      intro s z hs h
      simp only [applyPlan] at h
      injection h with h
      exact h ▸ hs
  | cons a q ih =>
      intro s z hs h
      simp only [applyPlan] at h
      rcases ha : applyAction rows cols blocked s a with _ | s'
      · rw [ha] at h; cases h
      · rw [ha] at h
        exact ih s' z (hclosed s hs a s' (mem_of_applyAction ha)) h

theorem dfsLoop_complete (rows cols : ℤ) (blocked : Finset Coord) (s₀ : St) :
    ∀ fuel (stack : List (St × List Action)) (visited : Finset St) (gen exp : ℕ),
      (∀ v ∈ visited, ∀ a s', (a, s') ∈ successors v rows cols blocked →
        s' ∈ visited ∨ ∃ e ∈ stack, e.1 = s') →
      (s₀ ∈ visited ∨ ∃ e ∈ stack, e.1 = s₀) →
      (∀ v ∈ visited, is_goal v = false) →
      ∀ g e,
        dfsLoop rows cols blocked fuel stack visited gen exp =
          SearchResult.noplan g e →
        ∀ q z, applyPlan rows cols blocked s₀ q = some z → is_goal z = false := by
  intro fuel
  induction fuel with
  | zero =>
      intro stack visited gen exp hIA hIB hIC g e hres q z hq
      cases stack with
      | nil =>
          have hclosed : ∀ v ∈ visited, ∀ a s',
              (a, s') ∈ successors v rows cols blocked → s' ∈ visited := by
            intro v hv a s' hsucc
            rcases hIA v hv a s' hsucc with h | ⟨e', he', _⟩
            · exact h
            · cases he'
          have hs₀ : s₀ ∈ visited := by
            rcases hIB with h | ⟨e', he', _⟩
            · exact h
            · cases he'
          exact hIC z (visited_closed_reach rows cols blocked hclosed q s₀ z hs₀ hq)
      | cons x rest => cases hres
  | succ fuel ih =>
      intro stack visited gen exp hIA hIB hIC g e hres q z hq
      cases stack with
      | nil =>
          have hclosed : ∀ v ∈ visited, ∀ a s',
              (a, s') ∈ successors v rows cols blocked → s' ∈ visited := by
            intro v hv a s' hsucc
            rcases hIA v hv a s' hsucc with h | ⟨e', he', _⟩
            · exact h
            · cases he'
          have hs₀ : s₀ ∈ visited := by
            rcases hIB with h | ⟨e', he', _⟩
            · exact h
            · cases he'
          exact hIC z (visited_closed_reach rows cols blocked hclosed q s₀ z hs₀ hq)
      | cons x rest =>
          rcases x with ⟨state, path⟩
          simp only [dfsLoop] at hres
          split_ifs at hres with h1 h2
          · -- already visited: discard the entry
            refine ih rest visited gen exp ?_ ?_ hIC g e hres q z hq
            · intro v hv a s' hsucc
              rcases hIA v hv a s' hsucc with h | ⟨e', he', h3⟩
              · exact Or.inl h
              · rcases List.mem_cons.mp he' with rfl | he'
                · exact Or.inl (h3 ▸ h1)
                · exact Or.inr ⟨e', he', h3⟩
            · rcases hIB with h | ⟨e', he', h3⟩
              · exact Or.inl h
              · rcases List.mem_cons.mp he' with rfl | he'
                · exact Or.inl (h3 ▸ h1)
                · exact Or.inr ⟨e', he', h3⟩
          · -- expansion
            rw [sortA_successors] at hres
            refine ih _ _ _ _ ?_ ?_ ?_ g e hres q z hq
            · intro v hv a s' hsucc
              rcases Finset.mem_insert.mp hv with rfl | hv
              · refine Or.inr ⟨(s', path ++ [a]), ?_, rfl⟩
                refine List.mem_append.mpr (Or.inl ?_)
                exact List.mem_map.mpr ⟨(a, s'), hsucc, rfl⟩
              · rcases hIA v hv a s' hsucc with h | ⟨e', he', h3⟩
                · exact Or.inl (Finset.mem_insert_of_mem h)
                · rcases List.mem_cons.mp he' with rfl | he'
                  · exact Or.inl (h3 ▸ Finset.mem_insert_self _ _)
                  · exact Or.inr ⟨e', List.mem_append.mpr (Or.inr he'), h3⟩
            · rcases hIB with h | ⟨e', he', h3⟩
              · exact Or.inl (Finset.mem_insert_of_mem h)
              · rcases List.mem_cons.mp he' with rfl | he'
                · exact Or.inl (h3 ▸ Finset.mem_insert_self _ _)
                · exact Or.inr ⟨e', List.mem_append.mpr (Or.inr he'), h3⟩
            · intro v hv
              rcases Finset.mem_insert.mp hv with rfl | hv
              · simpa using h2
              · exact hIC v hv

/-! ## Termination of `depth_first_search` -/

theorem dfsLoop_term (w : World) :
    ∀ n (stack : List (St × List Action)) (visited : Finset St) (gen exp : ℕ),
      (∀ e ∈ stack, e.1 ∈ stSpace w) →
      5 * ((stSpace w \ visited).card) + stack.length ≤ n →
      dfsLoop w.rows w.cols w.blocked n stack visited gen exp ≠
        SearchResult.timeout := by
  intro n
  induction n with
  | zero =>
      intro stack visited gen exp hsp hm
      have : stack = [] := by
        cases stack with
        | nil => rfl
        | cons x rest => simp [List.length_cons] at hm
      subst this
      simp [dfsLoop]
  | succ n ih =>
      intro stack visited gen exp hsp hm
      cases stack with
      | nil => simp [dfsLoop]
      | cons x rest =>
          rcases x with ⟨state, path⟩
          simp only [dfsLoop]
          split_ifs with h1 h2
          · refine ih rest visited gen exp
              (fun e he => hsp e (List.mem_cons_of_mem _ he)) ?_
            simp only [List.length_cons] at hm
            omega
          · simp
          · rw [sortA_successors]
            have hstate : state ∈ stSpace w \ visited :=
              Finset.mem_sdiff.mpr ⟨hsp (state, path) (List.mem_cons_self _ _), h1⟩
            have hcard : (stSpace w \ insert state visited).card + 1 =
                (stSpace w \ visited).card := by
              rw [Finset.sdiff_insert]
              rw [Finset.card_erase_of_mem hstate]
              have hpos : 0 < (stSpace w \ visited).card :=
                Finset.card_pos.mpr ⟨state, hstate⟩
              omega
            have hsl := successors_length_le state w.rows w.cols w.blocked
            refine ih _ _ _ _ ?_ ?_
            · intro e he
              rcases List.mem_append.mp he with he | he
              · rcases List.mem_map.mp he with ⟨as, has, rfl⟩
                have has' : (as.1, as.2) ∈ successors state w.rows w.cols w.blocked := by
                  rw [Prod.mk.eta]
                  exact has
                exact successors_mem_stSpace
                  (hsp (state, path) (List.mem_cons_self _ _)) has'
              · exact hsp e (List.mem_cons_of_mem _ he)
            · simp only [List.length_append, List.length_map, List.length_cons] at hm ⊢
              omega

/-- With `5 * |space| + 1` iterations, `depth_first_search` finishes. -/
theorem depth_first_search_term (w : World) :
    depth_first_search w (5 * (stSpace w).card + 1) ≠ SearchResult.timeout := by
  unfold depth_first_search
  refine dfsLoop_term w _ _ _ _ _ ?_ ?_
  · intro e he
    rcases List.mem_singleton.mp he with rfl
    exact start_mem_stSpace w
  · simp

/-! ## The invariants of `uniform_cost_search`

`Exp` is the (ghost) set of states already expanded at their final cost.
`UInvCore` collects the fields that survive each single relaxation push;
the full invariant `UInv` additionally records that expanded states are
fully relaxed. -/

structure UInvCore (rows cols : ℤ) (blocked : Finset Coord) (s₀ : St)
    (frontier : List Entry) (g_best : List (St × ℕ)) (Exp : Finset St) :
    Prop where
  entry_path : ∀ e ∈ frontier, e.path.length = e.g ∧
    applyPlan rows cols blocked s₀ e.path = some e.state
  label_sound : ∀ s v, lookup g_best s = some v →
    ∃ p : List Action, p.length = v ∧ applyPlan rows cols blocked s₀ p = some s
  entry_label : ∀ e ∈ frontier, ∃ v, lookup g_best e.state = some v ∧ v ≤ e.g
  start_label : lookup g_best s₀ = some 0
  exp_min : ∀ u ∈ Exp, ∃ v, lookup g_best u = some v ∧
    ∀ q : List Action, applyPlan rows cols blocked s₀ q = some u → v ≤ q.length
  live : ∀ u v, lookup g_best u = some v → u ∉ Exp →
    ∃ e ∈ frontier, e.state = u ∧ e.g = v
  no_goal : ∀ u ∈ Exp, is_goal u = false

theorem lookup_cons (k : St) (v : ℕ) (m : List (St × ℕ)) (s : St) :
    lookup ((k, v) :: m) s = if k = s then some v else lookup m s := rfl

theorem applyPlan_snoc_of {rows cols : ℤ} {blocked : Finset Coord}
    {s₀ y z : St} {p : List Action} {a : Action}
    (hy : applyPlan rows cols blocked s₀ p = some y)
    (ha : applyAction rows cols blocked y a = some z) :
    applyPlan rows cols blocked s₀ (p ++ [a]) = some z := by
  rw [applyPlan_append, hy]
  simp [applyPlan, ha]

/-- Preservation of the invariant through the successor loop of one
expansion.  `s₁` is the freshly expanded state, labelled `g₀`, reached by
`path₀`; `succ` is the still-unprocessed tail of its successor list. -/
theorem relax_preserve (rows cols : ℤ) (blocked : Finset Coord) (s₀ s₁ : St)
    (Exp : Finset St) (g₀ : ℕ) (path₀ : List Action)
    (hs₁Exp : s₁ ∈ Exp)
    (hpath : applyPlan rows cols blocked s₀ path₀ = some s₁)
    (hlen : path₀.length = g₀) :
    ∀ (succ : List (Action × St)) (frontier : List Entry)
      (g_best : List (St × ℕ)) (cnt gen : ℕ),
      (∀ x ∈ succ, applyAction rows cols blocked s₁ x.1 = some x.2) →
      UInvCore rows cols blocked s₀ frontier g_best Exp →
      lookup g_best s₁ = some g₀ →
      (∀ u ∈ Exp, ∀ a s', (a, s') ∈ successors u rows cols blocked →
        ((a, s') ∈ succ ∧ u = s₁) ∨
        ∃ vu v', lookup g_best u = some vu ∧ lookup g_best s' = some v' ∧
          v' ≤ vu + 1) →
      UInvCore rows cols blocked s₀
          (relax g₀ path₀ succ frontier g_best cnt gen).1
          (relax g₀ path₀ succ frontier g_best cnt gen).2.1 Exp ∧
      lookup (relax g₀ path₀ succ frontier g_best cnt gen).2.1 s₁ = some g₀ ∧
      (∀ u ∈ Exp, ∀ a s', (a, s') ∈ successors u rows cols blocked →
        ∃ vu v', lookup (relax g₀ path₀ succ frontier g_best cnt gen).2.1 u = some vu ∧
          lookup (relax g₀ path₀ succ frontier g_best cnt gen).2.1 s' = some v' ∧
          v' ≤ vu + 1) := by
  intro succ
  induction succ with
  | nil =>
      intro frontier g_best cnt gen hact core hs₁ hcomb
      simp only [relax]
      refine ⟨core, hs₁, ?_⟩
      intro u hu a s' hsucc
      rcases hcomb u hu a s' hsucc with ⟨hmem, _⟩ | h
      · cases hmem
      · exact h
  | cons x more ih =>
      intro frontier g_best cnt gen hact core hs₁ hcomb
      have hstep : applyAction rows cols blocked s₁ x.1 = some x.2 :=
        hact x (List.mem_cons_self _ _)
      have hxpath : applyPlan rows cols blocked s₀ (path₀ ++ [x.1]) = some x.2 :=
        applyPlan_snoc_of hpath hstep
      have hxlen : (path₀ ++ [x.1]).length = g₀ + 1 := by
        simp [hlen]
      rcases hlk : lookup g_best x.2 with _ | prev
      · -- fresh state: push and label it
        simp only [relax, hlk]
        have hnotExp : x.2 ∉ Exp := by
          intro hmem
          obtain ⟨v, hv, _⟩ := core.exp_min x.2 hmem
          rw [hlk] at hv
          cases hv
        have hne₀ : x.2 ≠ s₀ := by
          intro he
          rw [he, core.start_label] at hlk
          cases hlk
        have hne₁ : x.2 ≠ s₁ := by
          intro he
          rw [he, hs₁] at hlk
          cases hlk
        refine ih (⟨g₀ + 1, cnt, x.2, path₀ ++ [x.1]⟩ :: frontier)
          ((x.2, g₀ + 1) :: g_best) (cnt + 1) (gen + 1)
          (fun y hy => hact y (List.mem_cons_of_mem _ hy)) ?_ ?_ ?_
        · constructor
          · intro e he
            rcases List.mem_cons.mp he with rfl | he
            · exact ⟨hxlen, hxpath⟩
            · exact core.entry_path e he
          · intro s v hv
            rw [lookup_cons] at hv
            split_ifs at hv with hk
            · injection hv with hv
              subst hk
              exact ⟨path₀ ++ [x.1], by rw [hxlen, hv], hxpath⟩
            · exact core.label_sound s v hv
          · intro e he
            rcases List.mem_cons.mp he with rfl | he
            · refine ⟨g₀ + 1, ?_, Nat.le_refl _⟩
              rw [lookup_cons, if_pos rfl]
            · obtain ⟨v, hv, hvle⟩ := core.entry_label e he
              by_cases hk : x.2 = e.state
              · refine ⟨g₀ + 1, by rw [lookup_cons, if_pos hk], ?_⟩
                rw [← hk] at hv
                rw [hlk] at hv
                cases hv
              · exact ⟨v, by rw [lookup_cons, if_neg hk]; exact hv, hvle⟩
          · rw [lookup_cons, if_neg hne₀]
            exact core.start_label
          · intro u hu
            obtain ⟨v, hv, hmin⟩ := core.exp_min u hu
            have hk : x.2 ≠ u := by
              intro he
              rw [he, hv] at hlk
              cases hlk
            exact ⟨v, by rw [lookup_cons, if_neg hk]; exact hv, hmin⟩
          · intro u v hv hu
            rw [lookup_cons] at hv
            split_ifs at hv with hk
            · injection hv with hv
              subst hk
              exact ⟨⟨g₀ + 1, cnt, x.2, path₀ ++ [x.1]⟩,
                List.mem_cons_self _ _, rfl, hv⟩
            · obtain ⟨e, he, hes, heg⟩ := core.live u v hv hu
              exact ⟨e, List.mem_cons_of_mem _ he, hes, heg⟩
          · exact core.no_goal
        · rw [lookup_cons, if_neg hne₁]
          exact hs₁
        · intro u hu a s' hsucc
          rcases hcomb u hu a s' hsucc with ⟨hmem, hus⟩ | ⟨vu, v', hvu, hv', hle⟩
          · rcases List.mem_cons.mp hmem with heq | hmem
            · -- the successor just processed
              subst hus
              right
              have hax : a = x.1 := congrArg Prod.fst heq
              have hsx : s' = x.2 := congrArg Prod.snd heq
              subst hax
              subst hsx
              refine ⟨g₀, g₀ + 1, ?_, ?_, Nat.le_refl _⟩
              · rw [lookup_cons, if_neg hne₁]
                exact hs₁
              · rw [lookup_cons, if_pos rfl]
            · exact Or.inl ⟨hmem, hus⟩
          · right
            have hku : x.2 ≠ u := by
              intro he
              rw [he, hvu] at hlk
              cases hlk
            have hks : x.2 ≠ s' := by
              intro he
              rw [he, hv'] at hlk
              cases hlk
            exact ⟨vu, v', by rw [lookup_cons, if_neg hku]; exact hvu,
              by rw [lookup_cons, if_neg hks]; exact hv', hle⟩
      · -- known state
        by_cases hlt : g₀ + 1 < prev
        · -- strictly better: push and relabel
          simp only [relax, hlk, if_pos hlt]
          have hnotExp : x.2 ∉ Exp := by
            intro hmem
            obtain ⟨v, hv, hmin⟩ := core.exp_min x.2 hmem
            rw [hlk] at hv
            injection hv with hv
            subst hv
            exact absurd (hmin _ hxpath) (by omega)
          have hne₀ : x.2 ≠ s₀ := by
            intro he
            rw [he, core.start_label] at hlk
            injection hlk with hlk
            omega
          have hne₁ : x.2 ≠ s₁ := by
            intro he
            exact hnotExp (he ▸ hs₁Exp)
          refine ih (⟨g₀ + 1, cnt, x.2, path₀ ++ [x.1]⟩ :: frontier)
            ((x.2, g₀ + 1) :: g_best) (cnt + 1) (gen + 1)
            (fun y hy => hact y (List.mem_cons_of_mem _ hy)) ?_ ?_ ?_
          · constructor
            · intro e he
              rcases List.mem_cons.mp he with rfl | he
              · exact ⟨hxlen, hxpath⟩
              · exact core.entry_path e he
            · intro s v hv
              rw [lookup_cons] at hv
              split_ifs at hv with hk
              · injection hv with hv
                subst hk
                exact ⟨path₀ ++ [x.1], by rw [hxlen, hv], hxpath⟩
              · exact core.label_sound s v hv
            · intro e he
              rcases List.mem_cons.mp he with rfl | he
              · refine ⟨g₀ + 1, ?_, Nat.le_refl _⟩
                rw [lookup_cons, if_pos rfl]
              · obtain ⟨v, hv, hvle⟩ := core.entry_label e he
                by_cases hk : x.2 = e.state
                · refine ⟨g₀ + 1, by rw [lookup_cons, if_pos hk], ?_⟩
                  rw [← hk] at hv
                  rw [hlk] at hv
                  injection hv with hv
                  omega
                · exact ⟨v, by rw [lookup_cons, if_neg hk]; exact hv, hvle⟩
            · rw [lookup_cons, if_neg hne₀]
              exact core.start_label
            · intro u hu
              obtain ⟨v, hv, hmin⟩ := core.exp_min u hu
              have hk : x.2 ≠ u := fun he => hnotExp (he ▸ hu)
              exact ⟨v, by rw [lookup_cons, if_neg hk]; exact hv, hmin⟩
            · intro u v hv hu
              rw [lookup_cons] at hv
              split_ifs at hv with hk
              · injection hv with hv
                subst hk
                exact ⟨⟨g₀ + 1, cnt, x.2, path₀ ++ [x.1]⟩,
                  List.mem_cons_self _ _, rfl, hv⟩
              · obtain ⟨e, he, hes, heg⟩ := core.live u v hv hu
                exact ⟨e, List.mem_cons_of_mem _ he, hes, heg⟩
            · exact core.no_goal
          · rw [lookup_cons, if_neg hne₁]
            exact hs₁
          · intro u hu a s' hsucc
            rcases hcomb u hu a s' hsucc with ⟨hmem, hus⟩ | ⟨vu, v', hvu, hv', hle⟩
            · rcases List.mem_cons.mp hmem with heq | hmem
              · subst hus
                right
                have hax : a = x.1 := congrArg Prod.fst heq
                have hsx : s' = x.2 := congrArg Prod.snd heq
                subst hax
                subst hsx
                refine ⟨g₀, g₀ + 1, ?_, ?_, Nat.le_refl _⟩
                · rw [lookup_cons, if_neg hne₁]
                  exact hs₁
                · rw [lookup_cons, if_pos rfl]
              · exact Or.inl ⟨hmem, hus⟩
            · right
              have hku : x.2 ≠ u := fun he => hnotExp (he ▸ hu)
              by_cases hks : x.2 = s'
              · refine ⟨vu, g₀ + 1, by rw [lookup_cons, if_neg hku]; exact hvu,
                  by rw [lookup_cons, if_pos hks], ?_⟩
                rw [← hks] at hv'
                rw [hlk] at hv'
                injection hv' with hv'
                omega
              · exact ⟨vu, v', by rw [lookup_cons, if_neg hku]; exact hvu,
                  by rw [lookup_cons, if_neg hks]; exact hv', hle⟩
        · -- no improvement: skip
          simp only [relax, hlk, if_neg hlt]
          refine ih frontier g_best cnt gen
            (fun y hy => hact y (List.mem_cons_of_mem _ hy)) core hs₁ ?_
          intro u hu a s' hsucc
          rcases hcomb u hu a s' hsucc with ⟨hmem, hus⟩ | h
          · rcases List.mem_cons.mp hmem with heq | hmem
            · subst hus
              right
              have hax : a = x.1 := congrArg Prod.fst heq
              have hsx : s' = x.2 := congrArg Prod.snd heq
              subst hax
              subst hsx
              exact ⟨g₀, prev, hs₁, hlk, by omega⟩
            · exact Or.inl ⟨hmem, hus⟩
          · exact Or.inr h
/-- The full invariant: the core fields plus "every expanded state has all
its successors labelled within one step of its own label". -/
structure UInv (rows cols : ℤ) (blocked : Finset Coord) (s₀ : St)
    (frontier : List Entry) (g_best : List (St × ℕ)) (Exp : Finset St) :
    Prop where
  core : UInvCore rows cols blocked s₀ frontier g_best Exp
  exp_relaxed : ∀ u ∈ Exp, ∀ a s', (a, s') ∈ successors u rows cols blocked →
    ∃ vu v', lookup g_best u = some vu ∧ lookup g_best s' = some v' ∧
      v' ≤ vu + 1

/-- The boundary lemma: any state reachable by a plan of length `n` that is
not yet expanded is matched by a frontier entry of cost at most `n`. -/
theorem UInv_boundary {rows cols : ℤ} {blocked : Finset Coord} {s₀ : St}
    {frontier : List Entry} {g_best : List (St × ℕ)} {Exp : Finset St}
    (inv : UInv rows cols blocked s₀ frontier g_best Exp) :
    ∀ (q : List Action) (z : St),
      applyPlan rows cols blocked s₀ q = some z → z ∉ Exp →
      ∃ e ∈ frontier, e.g ≤ q.length := by
  intro q
  induction q using List.reverseRecOn with
  | nil =>
      intro z hq hz
      have hzs : s₀ = z := by
        simpa [applyPlan] using hq
      subst hzs
      obtain ⟨e, he, _, heg⟩ := inv.core.live s₀ 0 inv.core.start_label hz
      exact ⟨e, he, by rw [heg]; exact Nat.zero_le _⟩
  | append_singleton q a ih =>
      intro z hq hz
      obtain ⟨y, hy, hstep⟩ := applyPlan_snoc hq
      by_cases hyExp : y ∈ Exp
      · have hsucc : (a, z) ∈ successors y rows cols blocked :=
          mem_of_applyAction hstep
        obtain ⟨vu, v', hvu, hv', hle⟩ := inv.exp_relaxed y hyExp a z hsucc
        obtain ⟨v, hv, hmin⟩ := inv.core.exp_min y hyExp
        have hveq : vu = v := by
          rw [hvu] at hv
          exact Option.some.inj hv
        have hvq : v ≤ q.length := hmin q hy
        obtain ⟨e, he, _, heg⟩ := inv.core.live z v' hv' hz
        refine ⟨e, he, ?_⟩
        rw [heg]
        simp only [List.length_append, List.length_cons, List.length_nil]
        omega
      · obtain ⟨e, he, hle⟩ := ih y hy hyExp
        refine ⟨e, he, ?_⟩
        simp only [List.length_append, List.length_cons, List.length_nil]
        omega

/-- The master induction for `uniform_cost_search`: under the invariant the
loop never hits the `KeyError`, a "no plan" result means no reachable state
is a goal, and a returned plan reaches a goal in the minimum possible
number of actions. -/
theorem ucs_master (rows cols : ℤ) (blocked : Finset Coord) (s₀ : St) :
    ∀ fuel (frontier : List Entry) (g_best : List (St × ℕ))
      (cnt gen exp : ℕ) (Exp : Finset St),
      UInv rows cols blocked s₀ frontier g_best Exp →
      (ucsLoop rows cols blocked fuel frontier g_best cnt gen exp ≠
        SearchResult.error) ∧
      (∀ g e, ucsLoop rows cols blocked fuel frontier g_best cnt gen exp =
          SearchResult.noplan g e →
        ∀ q z, applyPlan rows cols blocked s₀ q = some z →
          is_goal z = false) ∧
      (∀ pl g e, ucsLoop rows cols blocked fuel frontier g_best cnt gen exp =
          SearchResult.plan pl g e →
        (∃ z, applyPlan rows cols blocked s₀ pl = some z ∧ is_goal z = true) ∧
        (∀ q z, applyPlan rows cols blocked s₀ q = some z →
          is_goal z = true → pl.length ≤ q.length)) := by
  intro fuel
  induction fuel with
  | zero =>
      intro frontier g_best cnt gen exp Exp inv
      rcases hpop : popMin frontier with _ | ⟨ent, rest⟩
      · rw [ucsLoop_pop_none hpop]
        refine ⟨?_, ?_, ?_⟩
        · intro h
          cases h
        · intro g e _ q z hq
          by_cases hz : z ∈ Exp
          · exact inv.core.no_goal z hz
          · obtain ⟨e', he', _⟩ := UInv_boundary inv q z hq hz
            have : frontier = [] := popMin_eq_none_iff.mp hpop
            rw [this] at he'
            cases he'
        · intro pl g e h
          cases h
      · rw [ucsLoop_zero hpop]
        refine ⟨?_, ?_, ?_⟩
        · intro h
          cases h
        · intro g e h
          cases h
        · intro pl g e h
          cases h
  | succ fuel ih =>
      intro frontier g_best cnt gen exp Exp inv
      rcases hpop : popMin frontier with _ | ⟨ent, rest⟩
      · rw [ucsLoop_pop_none hpop]
        refine ⟨?_, ?_, ?_⟩
        · intro h
          cases h
        · intro g e _ q z hq
          by_cases hz : z ∈ Exp
          · exact inv.core.no_goal z hz
          · obtain ⟨e', he', _⟩ := UInv_boundary inv q z hq hz
            have : frontier = [] := popMin_eq_none_iff.mp hpop
            rw [this] at he'
            cases he'
        · intro pl g e h
          cases h
      · have hentf : ent ∈ frontier := popMin_mem hpop
        obtain ⟨gbl, hgbl, hgble⟩ := inv.core.entry_label ent hentf
        rcases hlk : lookup g_best ent.state with _ | gb
        · rw [hlk] at hgbl
          cases hgbl
        · have hgb : gb = gbl := by
            rw [hlk] at hgbl
            exact Option.some.inj hgbl
          subst hgb
          by_cases hstale : gb < ent.g
          · -- stale entry: discarded
            rw [ucsLoop_stale hpop hlk hstale]
            refine ih rest g_best cnt gen exp Exp ⟨?_, inv.exp_relaxed⟩
            constructor
            · exact fun e he => inv.core.entry_path e (popMin_mem_rest hpop he)
            · exact inv.core.label_sound
            · exact fun e he => inv.core.entry_label e (popMin_mem_rest hpop he)
            · exact inv.core.start_label
            · exact inv.core.exp_min
            · intro u v hv hu
              obtain ⟨e, he, hes, heg⟩ := inv.core.live u v hv hu
              have hne : e ≠ ent := by
                intro he'
                subst he'
                rw [hes] at hlk
                rw [hv] at hlk
                injection hlk with hlk
                omega
              rcases popMin_cases hpop he with rfl | hrest
              · exact absurd rfl hne
              · exact ⟨e, hrest, hes, heg⟩
            · exact inv.core.no_goal
          · -- up-to-date entry, so gb = ent.g
            have hge : ent.g = gb := Nat.le_antisymm (Nat.not_lt.mp hstale |> fun h => h) hgble
            have hentpath := inv.core.entry_path ent hentf
            have hmin : ∀ q : List Action,
                applyPlan rows cols blocked s₀ q = some ent.state →
                gb ≤ q.length := by
              intro q hq
              by_cases hExp : ent.state ∈ Exp
              · obtain ⟨v, hv, hm⟩ := inv.core.exp_min ent.state hExp
                rw [hlk] at hv
                rw [← Option.some.inj hv] at hm
                exact hm q hq
              · obtain ⟨e', he', hle⟩ := UInv_boundary inv q ent.state hq hExp
                have := popMin_min_g hpop e' he'
                omega
            rcases hgoal : is_goal ent.state with _ | _
            · -- expansion
              rw [ucsLoop_expand hpop hlk hstale hgoal]
              have hactions : ∀ x ∈ successors ent.state rows cols blocked,
                  applyAction rows cols blocked ent.state x.1 = some x.2 := by
                intro x hx
                refine applyAction_of_mem ?_
                rw [Prod.mk.eta]
                exact hx
              have hcore : UInvCore rows cols blocked s₀ rest g_best
                  (insert ent.state Exp) := by
                constructor
                · exact fun e he => inv.core.entry_path e (popMin_mem_rest hpop he)
                · exact inv.core.label_sound
                · exact fun e he => inv.core.entry_label e (popMin_mem_rest hpop he)
                · exact inv.core.start_label
                · intro u hu
                  rcases Finset.mem_insert.mp hu with rfl | hu
                  · exact ⟨gb, hlk, hmin⟩
                  · exact inv.core.exp_min u hu
                · intro u v hv hu
                  have hu' : u ∉ Exp := fun h => hu (Finset.mem_insert_of_mem h)
                  obtain ⟨e, he, hes, heg⟩ := inv.core.live u v hv hu'
                  have hne : e ≠ ent := by
                    intro he'
                    subst he'
                    exact hu (hes ▸ Finset.mem_insert_self _ _)
                  rcases popMin_cases hpop he with rfl | hrest
                  · exact absurd rfl hne
                  · exact ⟨e, hrest, hes, heg⟩
                · intro u hu
                  rcases Finset.mem_insert.mp hu with rfl | hu
                  · exact hgoal
                  · exact inv.core.no_goal u hu
              have hs₁ : lookup g_best ent.state = some ent.g := by
                rw [hlk, hge]
              have hcomb : ∀ u ∈ insert ent.state Exp, ∀ a s',
                  (a, s') ∈ successors u rows cols blocked →
                  ((a, s') ∈ successors ent.state rows cols blocked ∧
                    u = ent.state) ∨
                  ∃ vu v', lookup g_best u = some vu ∧
                    lookup g_best s' = some v' ∧ v' ≤ vu + 1 := by
                intro u hu a s' hsucc
                rcases Finset.mem_insert.mp hu with rfl | hu
                · exact Or.inl ⟨hsucc, rfl⟩
                · exact Or.inr (inv.exp_relaxed u hu a s' hsucc)
              obtain ⟨core', hs₁', hrelaxed'⟩ :=
                relax_preserve rows cols blocked s₀ ent.state
                  (insert ent.state Exp) ent.g ent.path
                  (Finset.mem_insert_self _ _) hentpath.2 hentpath.1
                  (successors ent.state rows cols blocked) rest g_best cnt gen
                  hactions hcore (hge ▸ hs₁) hcomb
              exact ih _ _ _ _ _ _ ⟨core', hrelaxed'⟩
            · -- goal popped: the returned plan is optimal
              rw [ucsLoop_goal hpop hlk hstale hgoal]
              refine ⟨?_, ?_, ?_⟩
              · intro h
                cases h
              · intro g e h
                cases h
              intro pl g e hres
              injection hres with hpl hg he
              subst hpl
              refine ⟨⟨ent.state, hentpath.2, hgoal⟩, ?_⟩
              intro q z hq hz
              have hzExp : z ∉ Exp := by
                intro hmem
                rw [inv.core.no_goal z hmem] at hz
                cases hz
              obtain ⟨e', he', hle⟩ := UInv_boundary inv q z hq hzExp
              have hme := popMin_min_g hpop e' he'
              have hplen := hentpath.1
              omega

/-! ## Termination of `uniform_cost_search`

A lexicographic measure: states of the space still unlabelled, then the
sum of all labels, then the frontier length.  Every loop iteration
strictly decreases it. -/

/-- States of the finite space not yet labelled in `g_best`. -/
def ucsFresh (w : World) (g_best : List (St × ℕ)) : ℕ :=
  ((stSpace w).filter (fun s => lookup g_best s = none)).card

/-- Sum of all labels over the finite space. -/
def ucsSum (w : World) (g_best : List (St × ℕ)) : ℕ :=
  Finset.sum (stSpace w) (fun s => (lookup g_best s).getD 0)

theorem fresh_filter_cons (w : World) (k : St) (v : ℕ) (g_best : List (St × ℕ)) :
    (stSpace w).filter (fun s => lookup ((k, v) :: g_best) s = none) =
      ((stSpace w).filter (fun s => lookup g_best s = none)).erase k := by
  ext s
  simp only [Finset.mem_filter, Finset.mem_erase, lookup_cons]
  constructor
  · rintro ⟨hs, hl⟩
    split_ifs at hl with hk
    exact ⟨fun he => hk he.symm, hs, hl⟩
  · rintro ⟨hne, hs, hl⟩
    refine ⟨hs, ?_⟩
    rw [if_neg (fun he => hne he.symm)]
    exact hl

theorem ucsFresh_cons_none {w : World} {k : St} {v : ℕ} {g_best : List (St × ℕ)}
    (hk : lookup g_best k = none) (hks : k ∈ stSpace w) :
    ucsFresh w ((k, v) :: g_best) < ucsFresh w g_best := by
  unfold ucsFresh
  rw [fresh_filter_cons]
  have hmem : k ∈ (stSpace w).filter (fun s => lookup g_best s = none) :=
    Finset.mem_filter.mpr ⟨hks, hk⟩
  rw [Finset.card_erase_of_mem hmem]
  have hpos : 0 < ((stSpace w).filter (fun s => lookup g_best s = none)).card :=
    Finset.card_pos.mpr ⟨k, hmem⟩
  omega

theorem ucsFresh_cons_some {w : World} {k : St} {v prev : ℕ}
    {g_best : List (St × ℕ)} (hk : lookup g_best k = some prev) :
    ucsFresh w ((k, v) :: g_best) = ucsFresh w g_best := by
  unfold ucsFresh
  rw [fresh_filter_cons]
  rw [Finset.erase_eq_of_not_mem]
  intro hmem
  rw [(Finset.mem_filter.mp hmem).2] at hk
  cases hk

theorem ucsSum_cons_some {w : World} {k : St} {v prev : ℕ}
    {g_best : List (St × ℕ)} (hk : lookup g_best k = some prev)
    (hv : v < prev) (hks : k ∈ stSpace w) :
    ucsSum w ((k, v) :: g_best) < ucsSum w g_best := by
  unfold ucsSum
  have h1 := Finset.add_sum_erase (stSpace w)
    (fun s => (lookup ((k, v) :: g_best) s).getD 0) hks
  have h2 := Finset.add_sum_erase (stSpace w)
    (fun s => (lookup g_best s).getD 0) hks
  have hfk' : (lookup ((k, v) :: g_best) k).getD 0 = v := by
    rw [lookup_cons, if_pos rfl]
    rfl
  have hfk : (lookup g_best k).getD 0 = prev := by
    rw [hk]
    rfl
  have hcong : (Finset.sum ((stSpace w).erase k)
        (fun s => (lookup ((k, v) :: g_best) s).getD 0)) =
      (Finset.sum ((stSpace w).erase k) (fun s => (lookup g_best s).getD 0)) := by
    refine Finset.sum_congr rfl ?_
    intro x hx
    rw [lookup_cons, if_neg (fun he => (Finset.mem_erase.mp hx).1 he.symm)]
  have h1' : (lookup ((k, v) :: g_best) k).getD 0 +
      Finset.sum ((stSpace w).erase k)
        (fun s => (lookup ((k, v) :: g_best) s).getD 0) =
      Finset.sum (stSpace w)
        (fun s => (lookup ((k, v) :: g_best) s).getD 0) := h1
  have h2' : (lookup g_best k).getD 0 +
      Finset.sum ((stSpace w).erase k) (fun s => (lookup g_best s).getD 0) =
      Finset.sum (stSpace w) (fun s => (lookup g_best s).getD 0) := h2
  rw [hfk'] at h1'
  rw [hfk] at h2'
  rw [hcong] at h1'
  omega

theorem relax_frontier_space (w : World) (g₀ : ℕ) (path₀ : List Action) :
    ∀ (succ : List (Action × St)) (frontier : List Entry)
      (g_best : List (St × ℕ)) (cnt gen : ℕ),
      (∀ x ∈ succ, x.2 ∈ stSpace w) →
      (∀ e ∈ frontier, e.state ∈ stSpace w) →
      ∀ e ∈ (relax g₀ path₀ succ frontier g_best cnt gen).1,
        e.state ∈ stSpace w := by
  intro succ
  induction succ with
  | nil =>
      intro frontier g_best cnt gen _ hf e he
      simp only [relax] at he
      exact hf e he
  | cons x more ih =>
      intro frontier g_best cnt gen hsp hf
      have hxs : x.2 ∈ stSpace w := hsp x (List.mem_cons_self _ _)
      have hsp' : ∀ y ∈ more, y.2 ∈ stSpace w :=
        fun y hy => hsp y (List.mem_cons_of_mem _ hy)
      rcases hlk : lookup g_best x.2 with _ | prev
      · simp only [relax, hlk]
        refine ih _ _ _ _ hsp' ?_
        intro e he
        rcases List.mem_cons.mp he with rfl | he
        · exact hxs
        · exact hf e he
      · by_cases hlt : g₀ + 1 < prev
        · simp only [relax, hlk, if_pos hlt]
          refine ih _ _ _ _ hsp' ?_
          intro e he
          rcases List.mem_cons.mp he with rfl | he
          · exact hxs
          · exact hf e he
        · simp only [relax, hlk, if_neg hlt]
          exact ih _ _ _ _ hsp' hf

theorem relax_measure (w : World) (g₀ : ℕ) (path₀ : List Action) :
    ∀ (succ : List (Action × St)) (frontier : List Entry)
      (g_best : List (St × ℕ)) (cnt gen : ℕ),
      (∀ x ∈ succ, x.2 ∈ stSpace w) →
      (ucsFresh w (relax g₀ path₀ succ frontier g_best cnt gen).2.1 <
        ucsFresh w g_best) ∨
      (ucsFresh w (relax g₀ path₀ succ frontier g_best cnt gen).2.1 =
        ucsFresh w g_best ∧
        ((ucsSum w (relax g₀ path₀ succ frontier g_best cnt gen).2.1 <
            ucsSum w g_best) ∨
          (ucsSum w (relax g₀ path₀ succ frontier g_best cnt gen).2.1 =
              ucsSum w g_best ∧
            (relax g₀ path₀ succ frontier g_best cnt gen).1 = frontier))) := by
  intro succ
  induction succ with
  | nil =>
      intro frontier g_best cnt gen _
      exact Or.inr ⟨rfl, Or.inr ⟨rfl, rfl⟩⟩
  | cons x more ih =>
      intro frontier g_best cnt gen hsp
      have hxs : x.2 ∈ stSpace w := hsp x (List.mem_cons_self _ _)
      have hsp' : ∀ y ∈ more, y.2 ∈ stSpace w :=
        fun y hy => hsp y (List.mem_cons_of_mem _ hy)
      rcases hlk : lookup g_best x.2 with _ | prev
      · -- fresh label: first component strictly decreases
        simp only [relax, hlk]
        have hlt : ucsFresh w ((x.2, g₀ + 1) :: g_best) < ucsFresh w g_best :=
          ucsFresh_cons_none hlk hxs
        rcases ih (⟨g₀ + 1, cnt, x.2, path₀ ++ [x.1]⟩ :: frontier)
            ((x.2, g₀ + 1) :: g_best) (cnt + 1) (gen + 1) hsp' with h | ⟨heq, _⟩
        · exact Or.inl (h.trans hlt)
        · exact Or.inl (heq ▸ hlt)
      · by_cases hlt : g₀ + 1 < prev
        · -- relabel: first equal, second strictly decreases
          simp only [relax, hlk, if_pos hlt]
          have hfe : ucsFresh w ((x.2, g₀ + 1) :: g_best) = ucsFresh w g_best :=
            ucsFresh_cons_some hlk
          have hse : ucsSum w ((x.2, g₀ + 1) :: g_best) < ucsSum w g_best :=
            ucsSum_cons_some hlk hlt hxs
          rcases ih (⟨g₀ + 1, cnt, x.2, path₀ ++ [x.1]⟩ :: frontier)
              ((x.2, g₀ + 1) :: g_best) (cnt + 1) (gen + 1) hsp' with h | ⟨heq, h2⟩
          · rw [hfe] at h
            exact Or.inl h
          · rcases h2 with hs | ⟨hseq, _⟩
            · exact Or.inr ⟨heq.trans hfe, Or.inl (hs.trans_le (Nat.le_of_lt hse))⟩
            · exact Or.inr ⟨heq.trans hfe, Or.inl (hseq ▸ hse)⟩
        · simp only [relax, hlk, if_neg hlt]
          exact ih frontier g_best cnt gen hsp'
theorem ucsLoop_term_aux (w : World) :
    ∀ a : ℕ, ∀ b : ℕ, ∀ c : ℕ,
      ∀ (frontier : List Entry) (g_best : List (St × ℕ)) (cnt gen exp : ℕ),
        ucsFresh w g_best = a → ucsSum w g_best = b → frontier.length = c →
        (∀ e ∈ frontier, e.state ∈ stSpace w) →
        ∃ fuel, ucsLoop w.rows w.cols w.blocked fuel frontier g_best cnt gen exp ≠
          SearchResult.timeout := by
  intro a
  induction a using Nat.strong_induction_on with
  | _ a iha =>
  intro b
  induction b using Nat.strong_induction_on with
  | _ b ihb =>
  intro c
  induction c using Nat.strong_induction_on with
  | _ c ihc =>
  intro frontier g_best cnt gen exp ha hb hc hsp
  rcases hpop : popMin frontier with _ | ⟨ent, rest⟩
  · refine ⟨0, ?_⟩
    rw [ucsLoop_pop_none hpop]
    intro h
    cases h
  · have hrest_sp : ∀ e ∈ rest, e.state ∈ stSpace w :=
      fun e he => hsp e (popMin_mem_rest hpop he)
    have hlen := popMin_length hpop
    rcases hlk : lookup g_best ent.state with _ | gb
    · refine ⟨1, ?_⟩
      rw [show (1 : ℕ) = 0 + 1 from rfl, ucsLoop_keyerror hpop hlk]
      intro h
      cases h
    · by_cases hstale : gb < ent.g
      · obtain ⟨fuel, hfuel⟩ := ihc rest.length (by omega) rest g_best cnt gen exp
          ha hb rfl hrest_sp
        refine ⟨fuel + 1, ?_⟩
        rw [ucsLoop_stale hpop hlk hstale]
        exact hfuel
      · rcases hgoal : is_goal ent.state with _ | _
        · -- expansion step
          have hsucc_sp : ∀ x ∈ successors ent.state w.rows w.cols w.blocked,
              x.2 ∈ stSpace w := by
            intro x hx
            have hx' : (x.1, x.2) ∈ successors ent.state w.rows w.cols w.blocked := by
              rw [Prod.mk.eta]
              exact hx
            exact successors_mem_stSpace (hsp ent (popMin_mem hpop)) hx'
          have hm := relax_measure w ent.g ent.path
            (successors ent.state w.rows w.cols w.blocked) rest g_best cnt gen
            hsucc_sp
          have hr_sp := relax_frontier_space w ent.g ent.path
            (successors ent.state w.rows w.cols w.blocked) rest g_best cnt gen
            hsucc_sp hrest_sp
          rcases hm with hm | ⟨hfeq, hm⟩
          · obtain ⟨fuel, hfuel⟩ := iha _ (by omega) _ _
              (relax ent.g ent.path (successors ent.state w.rows w.cols w.blocked)
                rest g_best cnt gen).1
              (relax ent.g ent.path (successors ent.state w.rows w.cols w.blocked)
                rest g_best cnt gen).2.1
              (relax ent.g ent.path (successors ent.state w.rows w.cols w.blocked)
                rest g_best cnt gen).2.2.1
              (relax ent.g ent.path (successors ent.state w.rows w.cols w.blocked)
                rest g_best cnt gen).2.2.2
              (exp + 1) rfl rfl rfl hr_sp
            refine ⟨fuel + 1, ?_⟩
            rw [ucsLoop_expand hpop hlk hstale hgoal]
            exact hfuel
          · rcases hm with hm | ⟨hseq, hfr⟩
            · obtain ⟨fuel, hfuel⟩ := ihb _ (by omega) _
                (relax ent.g ent.path (successors ent.state w.rows w.cols w.blocked)
                  rest g_best cnt gen).1
                (relax ent.g ent.path (successors ent.state w.rows w.cols w.blocked)
                  rest g_best cnt gen).2.1
                (relax ent.g ent.path (successors ent.state w.rows w.cols w.blocked)
                  rest g_best cnt gen).2.2.1
                (relax ent.g ent.path (successors ent.state w.rows w.cols w.blocked)
                  rest g_best cnt gen).2.2.2
                (exp + 1) (by omega) rfl rfl hr_sp
              refine ⟨fuel + 1, ?_⟩
              rw [ucsLoop_expand hpop hlk hstale hgoal]
              exact hfuel
            · obtain ⟨fuel, hfuel⟩ := ihc rest.length (by omega)
                (relax ent.g ent.path (successors ent.state w.rows w.cols w.blocked)
                  rest g_best cnt gen).1
                (relax ent.g ent.path (successors ent.state w.rows w.cols w.blocked)
                  rest g_best cnt gen).2.1
                (relax ent.g ent.path (successors ent.state w.rows w.cols w.blocked)
                  rest g_best cnt gen).2.2.1
                (relax ent.g ent.path (successors ent.state w.rows w.cols w.blocked)
                  rest g_best cnt gen).2.2.2
                (exp + 1) (by omega) (by omega) (by rw [hfr]) hr_sp
              refine ⟨fuel + 1, ?_⟩
              rw [ucsLoop_expand hpop hlk hstale hgoal]
              exact hfuel
        · refine ⟨1, ?_⟩
          rw [show (1 : ℕ) = 0 + 1 from rfl, ucsLoop_goal hpop hlk hstale hgoal]
          intro h
          cases h

/-! ## Top-level consequences for the two entry points -/

/-- `p` is a plan that, run from the start state, cleans every dirty cell. -/
def ReachesGoal (w : World) (p : List Action) : Prop :=
  ∃ z, applyPlan w.rows w.cols w.blocked (w.start, w.dirty) p = some z ∧
    is_goal z = true

theorem ucs_initial_inv (w : World) :
    UInv w.rows w.cols w.blocked (w.start, w.dirty)
      [⟨0, 0, (w.start, w.dirty), []⟩] [((w.start, w.dirty), 0)] ∅ := by
  constructor
  · constructor
    · intro e he
      rcases List.mem_singleton.mp he with rfl
      exact ⟨rfl, rfl⟩
    · intro s v hv
      simp only [lookup] at hv
      split_ifs at hv with hk
      · injection hv with hv
        exact ⟨[], by rw [← hv]; rfl, by rw [← hk]; rfl⟩
    · intro e he
      rcases List.mem_singleton.mp he with rfl
      exact ⟨0, by simp [lookup], Nat.le_refl _⟩
    · simp [lookup]
    · intro u hu
      cases hu
    · intro u v hv hu
      simp only [lookup] at hv
      split_ifs at hv with hk
      · injection hv with hv
        exact ⟨⟨0, 0, (w.start, w.dirty), []⟩, List.mem_singleton_self _,
          hk, hv⟩
    · intro u hu
      cases hu
  · intro u hu
    cases hu

theorem uniform_cost_search_spec (w : World) (fuel : ℕ) :
    (uniform_cost_search w fuel ≠ SearchResult.error) ∧
    (∀ g e, uniform_cost_search w fuel = SearchResult.noplan g e →
      ∀ p, ¬ ReachesGoal w p) ∧
    (∀ pl g e, uniform_cost_search w fuel = SearchResult.plan pl g e →
      ReachesGoal w pl ∧ ∀ q, ReachesGoal w q → pl.length ≤ q.length) := by
  have h := ucs_master w.rows w.cols w.blocked (w.start, w.dirty) fuel
    [⟨0, 0, (w.start, w.dirty), []⟩] [((w.start, w.dirty), 0)] 1 1 0 ∅
    (ucs_initial_inv w)
  refine ⟨h.1, ?_, ?_⟩
  · intro g e hres p hrp
    rcases hrp with ⟨z, hz, hg⟩
    rw [h.2.1 g e hres p z hz] at hg
    cases hg
  · intro pl g e hres
    obtain ⟨⟨z, hz, hg⟩, hopt⟩ := h.2.2 pl g e hres
    exact ⟨⟨z, hz, hg⟩, fun q hq => by
      rcases hq with ⟨z', hz', hg'⟩
      exact hopt q z' hz' hg'⟩

theorem uniform_cost_search_term (w : World) :
    ∃ fuel, uniform_cost_search w fuel ≠ SearchResult.timeout := by
  have h := ucsLoop_term_aux w
    (ucsFresh w [((w.start, w.dirty), 0)]) (ucsSum w [((w.start, w.dirty), 0)]) 1
    [⟨0, 0, (w.start, w.dirty), []⟩] [((w.start, w.dirty), 0)] 1 1 0
    rfl rfl rfl ?_
  · exact h
  · intro e he
    rcases List.mem_singleton.mp he with rfl
    exact start_mem_stSpace w

/-- When some plan cleans everything, `uniform_cost_search` (given enough
fuel) returns a shortest such plan. -/
theorem uniform_cost_search_finds_optimal (w : World)
    (hreach : ∃ p, ReachesGoal w p) :
    ∃ fuel pl g e, uniform_cost_search w fuel = SearchResult.plan pl g e ∧
      ReachesGoal w pl ∧ ∀ q, ReachesGoal w q → pl.length ≤ q.length := by
  obtain ⟨fuel, hterm⟩ := uniform_cost_search_term w
  have hspec := uniform_cost_search_spec w fuel
  rcases hres : uniform_cost_search w fuel with ⟨pl, g, e⟩ | ⟨g, e⟩ | _ | _
  · obtain ⟨hrg, hopt⟩ := hspec.2.2 pl g e hres
    exact ⟨fuel, pl, g, e, hres, hrg, hopt⟩
  · rcases hreach with ⟨p, hp⟩
    exact absurd hp (hspec.2.1 g e hres p)
  · exact absurd hres hterm
  · exact absurd hres hspec.1

theorem depth_first_search_sound (w : World) (fuel : ℕ) (pl : List Action)
    (g e : ℕ) (hres : depth_first_search w fuel = SearchResult.plan pl g e) :
    ReachesGoal w pl := by
  unfold depth_first_search at hres
  have hstack : ∀ e' ∈ [((w.start, w.dirty), ([] : List Action))],
      applyPlan w.rows w.cols w.blocked (w.start, w.dirty) e'.2 = some e'.1 := by
    intro e' he'
    rcases List.mem_singleton.mp he' with rfl
    rfl
  obtain ⟨z, hz, hg⟩ := dfsLoop_sound w.rows w.cols w.blocked (w.start, w.dirty)
    fuel [((w.start, w.dirty), [])] ∅ 1 0 hstack pl g e hres
  exact ⟨z, hz, hg⟩

theorem depth_first_search_complete (w : World) (fuel : ℕ) (g e : ℕ)
    (hres : depth_first_search w fuel = SearchResult.noplan g e) :
    ∀ p, ¬ ReachesGoal w p := by
  unfold depth_first_search at hres
  intro p hrp
  rcases hrp with ⟨z, hz, hg⟩
  have hIA : ∀ v ∈ (∅ : Finset St), ∀ a s',
      (a, s') ∈ successors v w.rows w.cols w.blocked →
      s' ∈ (∅ : Finset St) ∨
        ∃ e ∈ [((w.start, w.dirty), ([] : List Action))], e.1 = s' := by
    intro v hv
    cases hv
  have hIB : (w.start, w.dirty) ∈ (∅ : Finset St) ∨
      ∃ e ∈ [((w.start, w.dirty), ([] : List Action))],
        e.1 = (w.start, w.dirty) :=
    Or.inr ⟨((w.start, w.dirty), []), List.mem_singleton_self _, rfl⟩
  have hIC : ∀ v ∈ (∅ : Finset St), is_goal v = false := by
    intro v hv
    cases hv
  have hfalse := dfsLoop_complete w.rows w.cols w.blocked (w.start, w.dirty)
    fuel [((w.start, w.dirty), [])] ∅ 1 0 hIA hIB hIC g e hres p z hz
  rw [hfalse] at hg
  cases hg

/-- When some plan cleans everything, `depth_first_search` (given enough
fuel) returns some plan. -/
theorem depth_first_search_finds (w : World)
    (hreach : ∃ p, ReachesGoal w p) :
    ∃ fuel pl g e, depth_first_search w fuel = SearchResult.plan pl g e := by
  have hterm := depth_first_search_term w
  rcases hres : depth_first_search w (5 * (stSpace w).card + 1)
    with ⟨pl, g, e⟩ | ⟨g, e⟩ | _ | _
  · exact ⟨_, pl, g, e, hres⟩
  · rcases hreach with ⟨p, hp⟩
    exact absurd hp (depth_first_search_complete w _ g e hres p)
  · exact absurd hres hterm
  · exact absurd hres (dfsLoop_ne_error _ _ _ _ _ _ _ _)

/-! ## The start state already being a goal -/

theorem dfs_goal_start (w : World) (h : w.dirty = ∅) (fuel : ℕ) :
    depth_first_search w (fuel + 1) = SearchResult.plan [] 1 1 := by
  unfold depth_first_search
  simp [dfsLoop, is_goal, h]

theorem ucs_goal_start (w : World) (h : w.dirty = ∅) (fuel : ℕ) :
    uniform_cost_search w (fuel + 1) = SearchResult.plan [] 1 1 := by
  unfold uniform_cost_search
  have hpop : popMin [⟨0, 0, (w.start, w.dirty), []⟩] =
      some (⟨0, 0, (w.start, w.dirty), []⟩, []) := rfl
  have hlk : lookup [((w.start, w.dirty), 0)]
      (Entry.mk 0 0 (w.start, w.dirty) []).state = some 0 := by
    simp [lookup]
  have hgoal : is_goal (Entry.mk 0 0 (w.start, w.dirty) []).state = true := by
    simp [is_goal, h]
  rw [ucsLoop_goal hpop hlk (by simp) hgoal]

/-! ## The claims -/

/-- The validity contract on a parsed world (spec section 6): positive
dimensions, start in bounds and unblocked, all blocked and dirty cells in
bounds. -/
def ValidWorld (w : World) : Prop :=
  0 < w.rows ∧ 0 < w.cols ∧ inBounds w.rows w.cols w.start ∧
  w.start ∉ w.blocked ∧ (∀ p ∈ w.blocked, inBounds w.rows w.cols p) ∧
  (∀ p ∈ w.dirty, inBounds w.rows w.cols p)

instance (w : World) : Decidable (ValidWorld w) := by
  unfold ValidWorld; infer_instance

/-- The precondition of each action at a state: a dirty current cell for
vacuum; an in-bounds, unblocked destination for each move. -/
def actionPre (rows cols : ℤ) (blocked : Finset Coord) (state : St) :
    Action → Prop
  | Action.V => state.1 ∈ state.2
  | Action.N => okDest rows cols blocked (state.1.1 - 1, state.1.2)
  | Action.S => okDest rows cols blocked (state.1.1 + 1, state.1.2)
  | Action.E => okDest rows cols blocked (state.1.1, state.1.2 + 1)
  | Action.W => okDest rows cols blocked (state.1.1, state.1.2 - 1)

/-- The trivial 1x1 world with a clean grid. -/
def trivialWorld : World :=
  { rows := 1, cols := 1, blocked := ∅, start := (0, 0), dirty := ∅ }

/-- C1 (amended): in the ordering scenario both algorithms explore the east
successor before the west one, per the canonical action order V, N, S, E, W,
and both return the plan [E, V, W, W, V] — DFS with 10 generated and 6
expanded, UCS with 11 generated and 10 expanded. -/
theorem C1_ordering_east_first :
    depth_first_search orderingWorld 64 =
      SearchResult.plan [Action.E, Action.V, Action.W, Action.W, Action.V] 10 6 ∧
    uniform_cost_search orderingWorld 64 =
      SearchResult.plan [Action.E, Action.V, Action.W, Action.W, Action.V] 11 10 ∧
    ([Action.E, Action.V, Action.W, Action.W, Action.V].head? = some Action.E) := by
  refine ⟨by decide, by decide, rfl⟩

/-- C1 (counterexample): contrary to the claim, neither algorithm explores
west before east on the ordering scenario — both returned plans begin with
the east move, not the west one. -/
theorem C1_counterexample :
    depth_first_search orderingWorld 64 =
      SearchResult.plan [Action.E, Action.V, Action.W, Action.W, Action.V] 10 6 ∧
    uniform_cost_search orderingWorld 64 =
      SearchResult.plan [Action.E, Action.V, Action.W, Action.W, Action.V] 11 10 ∧
    ¬ (∃ pl g e, depth_first_search orderingWorld 64 =
        SearchResult.plan (Action.W :: pl) g e) ∧
    ¬ (∃ pl g e, uniform_cost_search orderingWorld 64 =
        SearchResult.plan (Action.W :: pl) g e) := by
  have hd : depth_first_search orderingWorld 64 =
      SearchResult.plan [Action.E, Action.V, Action.W, Action.W, Action.V] 10 6 := by
    decide
  have hu : uniform_cost_search orderingWorld 64 =
      SearchResult.plan [Action.E, Action.V, Action.W, Action.W, Action.V] 11 10 := by
    decide
  refine ⟨hd, hu, ?_, ?_⟩
  · rintro ⟨pl, g, e, h⟩
    rw [hd] at h
    injection h with h1 h2 h3
    injection h1 with h4 h5
    cases h4
  · rintro ⟨pl, g, e, h⟩
    rw [hu] at h
    injection h with h1 h2 h3
    injection h1 with h4 h5
    cases h4

/-- C2: successor generation yields exactly the legal pairs in the fixed
canonical priority order — vacuum first, then north, south, east, west,
each guarded by its precondition, as the spec words it. -/
theorem C2_successors_canonical (state : St) (rows cols : ℤ)
    (blocked : Finset Coord) :
    successors state rows cols blocked = specSuccessors state rows cols blocked :=
  successors_eq_spec state rows cols blocked

/-- C3: for a valid world with a reachable goal, `uniform_cost_search`
returns a plan that cleans everything and whose length is minimal among all
such plans. -/
theorem C3_ucs_optimal (w : World) (hvalid : ValidWorld w)
    (hreach : ∃ p, ReachesGoal w p) :
    ∃ fuel pl g e, uniform_cost_search w fuel = SearchResult.plan pl g e ∧
      ReachesGoal w pl ∧ ∀ q, ReachesGoal w q → pl.length ≤ q.length :=
  uniform_cost_search_finds_optimal w hreach

theorem C3_witness :
    ∃ fuel pl g e,
      uniform_cost_search orderingWorld fuel = SearchResult.plan pl g e ∧
      ReachesGoal orderingWorld pl ∧
      ∀ q, ReachesGoal orderingWorld q → pl.length ≤ q.length :=
  C3_ucs_optimal orderingWorld (by decide)
    ⟨[Action.E, Action.V, Action.W, Action.W, Action.V],
      ((0, 0), ∅), by decide, by decide⟩

/-- C4: any plan returned by either algorithm, applied in order to the start
state, ends in a state with an empty dirty set. -/
theorem C4_plans_clean (w : World) (fuel : ℕ) (pl : List Action) (g e : ℕ)
    (hres : depth_first_search w fuel = SearchResult.plan pl g e ∨
            uniform_cost_search w fuel = SearchResult.plan pl g e) :
    ∃ z, applyPlan w.rows w.cols w.blocked (w.start, w.dirty) pl = some z ∧
      z.2 = ∅ := by
  rcases hres with h | h
  · obtain ⟨z, hz, hg⟩ := depth_first_search_sound w fuel pl g e h
    refine ⟨z, hz, ?_⟩
    simpa [is_goal, Finset.card_eq_zero] using hg
  · obtain ⟨⟨z, hz, hg⟩, _⟩ :=
      (uniform_cost_search_spec w fuel).2.2 pl g e h
    refine ⟨z, hz, ?_⟩
    simpa [is_goal, Finset.card_eq_zero] using hg

theorem C4_witness :
    ∃ z, applyPlan orderingWorld.rows orderingWorld.cols orderingWorld.blocked
        (orderingWorld.start, orderingWorld.dirty)
        [Action.E, Action.V, Action.W, Action.W, Action.V] = some z ∧
      z.2 = ∅ :=
  C4_plans_clean orderingWorld 64
    [Action.E, Action.V, Action.W, Action.W, Action.V] 10 6
    (Or.inl (by decide))

/-- C5: for a valid world with a reachable goal, `depth_first_search`
returns some plan (never the "no plan" result). -/
theorem C5_dfs_finds_plan (w : World) (hvalid : ValidWorld w)
    (hreach : ∃ p, ReachesGoal w p) :
    ∃ fuel pl g e, depth_first_search w fuel = SearchResult.plan pl g e :=
  depth_first_search_finds w hreach

theorem C5_witness :
    ∃ fuel pl g e,
      depth_first_search orderingWorld fuel = SearchResult.plan pl g e :=
  C5_dfs_finds_plan orderingWorld (by decide)
    ⟨[Action.E, Action.V, Action.W, Action.W, Action.V],
      ((0, 0), ∅), by decide, by decide⟩

/-- C6: successor generation and goal testing are total: an action appears
among the successors exactly when its precondition holds (a failed
precondition merely omits it), the goal test simply decides emptiness of
the dirty set, and an exhausted frontier returns "no plan" as an ordinary
value in both search loops. -/
theorem C6_totality (rows cols : ℤ) (blocked : Finset Coord) (state : St)
    (a : Action) :
    ((∃ s', (a, s') ∈ successors state rows cols blocked) ↔
      actionPre rows cols blocked state a) ∧
    (is_goal state = true ↔ state.2 = ∅) ∧
    (∀ fuel visited gen exp,
      dfsLoop rows cols blocked fuel [] visited gen exp =
        SearchResult.noplan gen exp) ∧
    (∀ fuel g_best cnt gen exp,
      ucsLoop rows cols blocked fuel [] g_best cnt gen exp =
        SearchResult.noplan gen exp) := by
  refine ⟨?_, ?_, ?_, ?_⟩
  · constructor
    · rintro ⟨s', hs'⟩
      rcases mem_successors_iff.mp hs' with ⟨rfl, h, _⟩ | ⟨rfl, h, _⟩ |
        ⟨rfl, h, _⟩ | ⟨rfl, h, _⟩ | ⟨rfl, h, _⟩ <;> exact h
    · intro h
      cases a with
      | V => exact ⟨(state.1, state.2.erase state.1),
          mem_successors_iff.mpr (Or.inl ⟨rfl, h, rfl⟩)⟩
      | N => exact ⟨((state.1.1 - 1, state.1.2), state.2),
          mem_successors_iff.mpr (Or.inr (Or.inl ⟨rfl, h, rfl⟩))⟩
      | S => exact ⟨((state.1.1 + 1, state.1.2), state.2),
          mem_successors_iff.mpr (Or.inr (Or.inr (Or.inl ⟨rfl, h, rfl⟩)))⟩
      | E => exact ⟨((state.1.1, state.1.2 + 1), state.2),
          mem_successors_iff.mpr (Or.inr (Or.inr (Or.inr (Or.inl ⟨rfl, h, rfl⟩))))⟩
      | W => exact ⟨((state.1.1, state.1.2 - 1), state.2),
          mem_successors_iff.mpr (Or.inr (Or.inr (Or.inr (Or.inr ⟨rfl, h, rfl⟩))))⟩
  · simp [is_goal, Finset.card_eq_zero]
  · intro fuel visited gen exp
    cases fuel <;> rfl
  · intro fuel g_best cnt gen exp
    exact ucsLoop_pop_none rfl

/-- C7: the expanded counter never exceeds the generated counter for either
algorithm, and on a world whose start state is already a goal both return
the empty plan with one node generated and one expanded. -/
theorem C7_counters (w : World) (fuel : ℕ) :
    (∀ pl g e, depth_first_search w fuel = SearchResult.plan pl g e → e ≤ g) ∧
    (∀ g e, depth_first_search w fuel = SearchResult.noplan g e → e ≤ g) ∧
    (∀ pl g e, uniform_cost_search w fuel = SearchResult.plan pl g e → e ≤ g) ∧
    (∀ g e, uniform_cost_search w fuel = SearchResult.noplan g e → e ≤ g) ∧
    (w.dirty = ∅ → 0 < fuel →
      depth_first_search w fuel = SearchResult.plan [] 1 1 ∧
      uniform_cost_search w fuel = SearchResult.plan [] 1 1) := by
  refine ⟨?_, ?_, ?_, ?_, ?_⟩
  · intro pl g e h
    exact dfsLoop_exp_le_gen w.rows w.cols w.blocked fuel _ _ _ _ (by simp)
      pl g e (Or.inl h)
  · intro g e h
    exact dfsLoop_exp_le_gen w.rows w.cols w.blocked fuel _ _ _ _ (by simp)
      [] g e (Or.inr h)
  · intro pl g e h
    exact ucsLoop_exp_le_gen w.rows w.cols w.blocked fuel _ _ _ _ _ (by simp)
      pl g e (Or.inl h)
  · intro g e h
    exact ucsLoop_exp_le_gen w.rows w.cols w.blocked fuel _ _ _ _ _ (by simp)
      [] g e (Or.inr h)
  · intro hdirty hfuel
    rcases fuel with _ | f
    · exact absurd hfuel (by omega)
    · exact ⟨dfs_goal_start w hdirty f, ucs_goal_start w hdirty f⟩

theorem C7_witness :
    depth_first_search trivialWorld 1 = SearchResult.plan [] 1 1 ∧
    uniform_cost_search trivialWorld 1 = SearchResult.plan [] 1 1 ∧
    (1 : ℕ) ≤ 1 := by
  have h := C7_counters trivialWorld 1
  obtain ⟨hd, hu⟩ := h.2.2.2.2 rfl Nat.one_pos
  exact ⟨hd, hu, h.1 [] 1 1 hd⟩

/-- C8: a popped frontier entry whose cost exceeds the best-known cost of
its state is discarded — same counters, no goal test, no expansion; an
up-to-date entry is goal-tested and (if not a goal) expanded with
`nodes_expanded` incremented by exactly one. -/
theorem C8_stale_entries (rows cols : ℤ) (blocked : Finset Coord) (fuel : ℕ)
    (frontier : List Entry) (g_best : List (St × ℕ)) (cnt gen exp : ℕ)
    (ent : Entry) (rest : List Entry) (gb : ℕ)
    (hpop : popMin frontier = some (ent, rest))
    (hlk : lookup g_best ent.state = some gb) :
    (gb < ent.g →
      ucsLoop rows cols blocked (fuel + 1) frontier g_best cnt gen exp =
        ucsLoop rows cols blocked fuel rest g_best cnt gen exp) ∧
    (¬ gb < ent.g →
      ucsLoop rows cols blocked (fuel + 1) frontier g_best cnt gen exp =
        (if is_goal ent.state then SearchResult.plan ent.path gen (exp + 1)
         else
           (fun r => ucsLoop rows cols blocked fuel r.1 r.2.1 r.2.2.1 r.2.2.2
             (exp + 1))
             (relax ent.g ent.path (successors ent.state rows cols blocked)
               rest g_best cnt gen))) := by
  constructor
  · intro hstale
    exact ucsLoop_stale hpop hlk hstale
  · intro hstale
    rcases hgoal : is_goal ent.state with _ | _
    · rw [if_neg (by simp)]
      exact ucsLoop_expand hpop hlk hstale hgoal
    · rw [if_pos rfl]
      exact ucsLoop_goal hpop hlk hstale hgoal

theorem C8_witness :
    ucsLoop 1 1 ∅ 1 [⟨5, 0, ((0, 0), ∅), []⟩] [(((0, 0), ∅), 2)] 1 1 0 =
      ucsLoop 1 1 ∅ 0 [] [(((0, 0), ∅), 2)] 1 1 0 :=
  (C8_stale_entries 1 1 ∅ 0 [⟨5, 0, ((0, 0), ∅), []⟩] [(((0, 0), ∅), 2)]
    1 1 0 ⟨5, 0, ((0, 0), ∅), []⟩ [] 2 rfl (by decide)).1 (by decide)

/-- C9: on any world with a finite positive grid, both searches terminate —
with enough fuel each returns either a plan or the "no plan" value, and the
result is stable under any additional fuel. -/
theorem C9_termination (w : World) (hr : 0 < w.rows) (hc : 0 < w.cols) :
    ∃ fuel,
      ((∃ pl g e, depth_first_search w fuel = SearchResult.plan pl g e) ∨
       (∃ g e, depth_first_search w fuel = SearchResult.noplan g e)) ∧
      ((∃ pl g e, uniform_cost_search w fuel = SearchResult.plan pl g e) ∨
       (∃ g e, uniform_cost_search w fuel = SearchResult.noplan g e)) ∧
      (∀ extra, depth_first_search w (fuel + extra) = depth_first_search w fuel ∧
        uniform_cost_search w (fuel + extra) = uniform_cost_search w fuel) := by
  obtain ⟨fu, hfu⟩ := uniform_cost_search_term w
  have hfd := depth_first_search_term w
  refine ⟨5 * (stSpace w).card + 1 + fu, ?_, ?_, ?_⟩
  · have heq : depth_first_search w (5 * (stSpace w).card + 1 + fu) =
        depth_first_search w (5 * (stSpace w).card + 1) := by
      unfold depth_first_search at hfd ⊢
      exact dfsLoop_add_fuel w.rows w.cols w.blocked _ _ _ _ _ fu hfd
    rw [heq]
    rcases hres : depth_first_search w (5 * (stSpace w).card + 1)
      with ⟨pl, g, e⟩ | ⟨g, e⟩ | _ | _
    · exact Or.inl ⟨pl, g, e, rfl⟩
    · exact Or.inr ⟨g, e, rfl⟩
    · exact absurd hres hfd
    · exact absurd hres (dfsLoop_ne_error _ _ _ _ _ _ _ _)
  · have heq : uniform_cost_search w (5 * (stSpace w).card + 1 + fu) =
        uniform_cost_search w fu := by
      unfold uniform_cost_search at hfu ⊢
      rw [Nat.add_comm]
      exact ucsLoop_add_fuel w.rows w.cols w.blocked _ _ _ _ _ _ _ hfu
    rw [heq]
    rcases hres : uniform_cost_search w fu with ⟨pl, g, e⟩ | ⟨g, e⟩ | _ | _
    · exact Or.inl ⟨pl, g, e, rfl⟩
    · exact Or.inr ⟨g, e, rfl⟩
    · exact absurd hres hfu
    · exact absurd hres (uniform_cost_search_spec w fu).1
  · intro extra
    constructor
    · have hne : depth_first_search w (5 * (stSpace w).card + 1 + fu) ≠
          SearchResult.timeout := by
        unfold depth_first_search at hfd ⊢
        rw [dfsLoop_add_fuel w.rows w.cols w.blocked _ _ _ _ _ fu hfd]
        exact hfd
      unfold depth_first_search at hne ⊢
      exact dfsLoop_add_fuel w.rows w.cols w.blocked _ _ _ _ _ extra hne
    · have hne : uniform_cost_search w (5 * (stSpace w).card + 1 + fu) ≠
          SearchResult.timeout := by
        unfold uniform_cost_search at hfu ⊢
        rw [Nat.add_comm]
        rw [ucsLoop_add_fuel w.rows w.cols w.blocked _ _ _ _ _ _ _ hfu]
        exact hfu
      unfold uniform_cost_search at hne ⊢
      exact ucsLoop_add_fuel w.rows w.cols w.blocked _ _ _ _ _ _ extra hne

theorem C9_witness :
    ∃ fuel,
      ((∃ pl g e,
          depth_first_search orderingWorld fuel = SearchResult.plan pl g e) ∨
       (∃ g e,
          depth_first_search orderingWorld fuel = SearchResult.noplan g e)) ∧
      ((∃ pl g e,
          uniform_cost_search orderingWorld fuel = SearchResult.plan pl g e) ∨
       (∃ g e,
          uniform_cost_search orderingWorld fuel = SearchResult.noplan g e)) ∧
      (∀ extra,
        depth_first_search orderingWorld (fuel + extra) =
          depth_first_search orderingWorld fuel ∧
        uniform_cost_search orderingWorld (fuel + extra) =
          uniform_cost_search orderingWorld fuel) :=
  C9_termination orderingWorld (by decide) (by decide)

/-- C10: the unguarded `g_best[state]` lookup never fails: every state a
push puts on the frontier is keyed in `g_best` at push time and stays keyed,
so `uniform_cost_search` never raises a `KeyError`. -/
theorem C10_no_keyerror :
    (∀ (w : World) (fuel : ℕ),
      uniform_cost_search w fuel ≠ SearchResult.error) ∧
    (∀ (g : ℕ) (p : List Action) (succ : List (Action × St))
        (frontier : List Entry) (g_best : List (St × ℕ)) (cnt gen : ℕ),
      (∀ e ∈ frontier, lookup g_best e.state ≠ none) →
      ∀ e ∈ (relax g p succ frontier g_best cnt gen).1,
        lookup (relax g p succ frontier g_best cnt gen).2.1 e.state ≠ none) := by
  constructor
  · intro w fuel
    exact (uniform_cost_search_spec w fuel).1
  · intro g p succ frontier g_best cnt gen h
    exact relax_frontier_keyed g p succ frontier g_best cnt gen h

end Vacuum
